import Mathlib

/-
Verification of the Texas hold'em hand evaluator in `play.py` against its
natural-language specification.

The Python module is shallowly embedded below.  Cards are integers in
[0, 51] (`suit = id / 13`, `base rank = id % 13`, ace = rank 0).  Python
lists become `List Nat`, Python dicts and `collections.Counter` become
association lists (`List (Nat × Nat)`) that preserve insertion order
exactly as CPython dicts do, and `sorted` becomes `List.insertionSort`,
which is stable just like CPython's sort.  Fallible operations (list
indexing, tuple unpacking) are modelled with `Except String`; an
exception raised while evaluating a hand surfaces as `.error`.  The
`ValueError` that `assess_hand` would raise when unpacking the empty
list returned by `find_max_sequence` for a single-valued hand is folded
into `find_max_sequence`'s own result, since the two functions are only
ever composed.

Rank descriptors (Python tuples `(Hand, v, ...)`) are `List Nat` whose
head is the `Hand` IntEnum code (HIGH_CARD = 1 ... STRAIGHT_FLUSH = 9);
Python's lexicographic tuple comparison is `desc_lt`.
-/

/-- `card_value` from `play.py`: ace ids (id % 13 == 0) rank highest (13),
every other id ranks as `id % 13` (1..12). -/
def card_value (c : Nat) : Nat :=
  if c % 13 = 0 then 13 else c % 13

/-- Python dict assignment `d[k] = v`: replace in place if the key is
present (CPython keeps the original insertion position), else append. -/
def dict_insert (d : List (Nat × Nat)) (k v : Nat) : List (Nat × Nat) :=
  if k ∈ d.map Prod.fst then
    d.map (fun p => if p.1 = k then (p.1, v) else p)
  else
    d ++ [(k, v)]

/-- Python dict lookup `d[k]` (as an `Option`). -/
def dict_get (d : List (Nat × Nat)) (k : Nat) : Option Nat :=
  (d.find? (fun p => p.1 == k)).map Prod.snd

/-- The dict comprehension in `find_max_sequence`:
`{card_value(c): Card(value=card_value(c), id=c) for c in cards}`.
Keyed by card value; a later card with the same value overwrites the
earlier representative.  Entries are stored as (value, id) pairs. -/
def card_dict (cards : List Nat) : List (Nat × Nat) :=
  cards.foldl (fun d c => dict_insert d (card_value c) c) []

/-- The ace's second, low role in `find_max_sequence`:
`if 13 in card_dict: card_dict[0] = Cards(value=0, id=card_dict[13].id)`. -/
def with_low_ace (d : List (Nat × Nat)) : List (Nat × Nat) :=
  match dict_get d 13 with
  | some i => dict_insert d 0 i
  | none => d

/-- Lexicographic order on the `Card(value, id)` namedtuples, as used by
`sorted(card_dict.values())`. -/
def pair_le (a b : Nat × Nat) : Prop :=
  a.1 < b.1 ∨ (a.1 = b.1 ∧ a.2 ≤ b.2)

instance : DecidableRel pair_le := fun a b =>
  inferInstanceAs (Decidable (a.1 < b.1 ∨ (a.1 = b.1 ∧ a.2 ≤ b.2)))

instance : IsTotal (Nat × Nat) pair_le where
  total a b := by
    unfold pair_le
    rcases Nat.lt_trichotomy a.1 b.1 with h | h | h
    · exact Or.inl (Or.inl h)
    · rcases Nat.le_total a.2 b.2 with h2 | h2
      · exact Or.inl (Or.inr ⟨h, h2⟩)
      · exact Or.inr (Or.inr ⟨h.symm, h2⟩)
    · exact Or.inr (Or.inl h)

instance : IsTrans (Nat × Nat) pair_le where
  trans a b c hab hbc := by
    unfold pair_le at *
    rcases hab with h1 | ⟨h1, h1'⟩ <;> rcases hbc with h2 | ⟨h2, h2'⟩
    · exact Or.inl (h1.trans h2)
    · exact Or.inl (h2 ▸ h1)
    · exact Or.inl (h1 ▸ h2)
    · exact Or.inr ⟨h1.trans h2, h1'.trans h2'⟩

instance : IsAntisymm (Nat × Nat) pair_le where
  antisymm a b hab hba := by
    unfold pair_le at *
    rcases hab with h1 | ⟨h1, h1'⟩ <;> rcases hba with h2 | ⟨h2, h2'⟩ <;>
      first
        | exact absurd h1 (by omega)
        | exact absurd h2 (by omega)
        | exact Prod.ext h1 (Nat.le_antisymm h1' h2')

/-- Key of `sorted(sequences, key=len)`. -/
def len_le (a b : List (Nat × Nat)) : Prop :=
  a.length ≤ b.length

instance : DecidableRel len_le := fun a b =>
  inferInstanceAs (Decidable (a.length ≤ b.length))

instance : IsTotal (List (Nat × Nat)) len_le where
  total a b := Nat.le_total a.length b.length

instance : IsTrans (List (Nat × Nat)) len_le where
  trans _ _ _ hab hbc := Nat.le_trans hab hbc

/-- Python slice `l[-n:]`: the last `n` elements (the whole list when it
is shorter than `n`). -/
def last_n (n : Nat) (l : List α) : List α :=
  l.drop (l.length - n)

/-- The run-splitting loop of `find_max_sequence`: walk the sorted
(value, id) pairs, extending the current run while the next value is the
successor of the previous one, starting a fresh run otherwise.  `cur` is
the pair examined last, `run` the run being built (it ends with `cur`). -/
def split_runs_go (cur : Nat × Nat) (run : List (Nat × Nat)) :
    List (Nat × Nat) → List (List (Nat × Nat))
  | [] => [run]
  | y :: ys =>
    if y.1 = cur.1 + 1 then split_runs_go y (run ++ [y]) ys
    else run :: split_runs_go y [y] ys

/-- `sorted(card_dict.values())` after the low-ace insertion. -/
def seq_pairs (cards : List Nat) : List (Nat × Nat) :=
  List.insertionSort pair_le (with_low_ace (card_dict cards))

/-- The `sequences` list built by `find_max_sequence`'s loop: the maximal
runs of consecutive values, in ascending encounter order. -/
def seq_runs (cards : List Nat) : List (List (Nat × Nat)) :=
  match seq_pairs cards with
  | [] => []
  | x :: xs => split_runs_go x [x] xs

/-- `sorted(sequences, key=len)[-1][-5:]`: the run selected by
`find_max_sequence` (CPython's sort is stable, so among runs of maximal
length the last-encountered one ends up last), truncated to its top 5
entries. -/
def max_run (cards : List Nat) : List (Nat × Nat) :=
  last_n 5 ((List.insertionSort len_le (seq_runs cards)).getLastD [])

/-- `find_max_sequence` from `play.py`.  Returns the value sequence and
the id sequence of the selected run.  `.error` covers the `IndexError`
on an empty input (`cards[0]`) and the `ValueError` the caller's
two-name unpacking raises when the function returns `[]` (single
distinct value). -/
def find_max_sequence (cards : List Nat) : Except String (List Nat × List Nat) :=
  if (card_dict cards).length = 1 then
    .error "ValueError: not enough values to unpack"
  else
    match seq_pairs cards with
    | [] => .error "IndexError: list index out of range"
    | _ :: _ =>
      match max_run cards with
      | [] => .error "ValueError: not enough values to unpack"
      | _ :: _ => .ok ((max_run cards).map Prod.fst, (max_run cards).map Prod.snd)

/-- One step of `collections.Counter`: count the next element, keeping
first-encounter insertion order for new keys. -/
def counter_add (cnt : List (Nat × Nat)) (v : Nat) : List (Nat × Nat) :=
  if v ∈ cnt.map Prod.fst then
    cnt.map (fun p => if p.1 = v then (p.1, p.2 + 1) else p)
  else
    cnt ++ [(v, 1)]

/-- `collections.Counter(l)` as an insertion-ordered association list of
(key, count) pairs. -/
def counter_of (l : List Nat) : List (Nat × Nat) :=
  l.foldl counter_add []

/-- Descending-count comparison used by `Counter.most_common`. -/
def count_ge (a b : Nat × Nat) : Prop :=
  b.2 ≤ a.2

instance : DecidableRel count_ge := fun a b =>
  inferInstanceAs (Decidable (b.2 ≤ a.2))

instance : IsTotal (Nat × Nat) count_ge where
  total a b := Nat.le_total b.2 a.2

instance : IsTrans (Nat × Nat) count_ge where
  trans _ _ _ hab hbc := Nat.le_trans hbc hab

/-- `Counter.most_common(n)`: the n entries with the largest counts;
CPython documents that entries with equal counts keep first-encountered
order, matching a stable descending sort. -/
def most_common (n : Nat) (cnt : List (Nat × Nat)) : List (Nat × Nat) :=
  (List.insertionSort count_ge cnt).take n

/-- `group_duplicates` from `play.py`, read at multiplicity `n`:
`groups[n]` lists the card values among the two most common ones whose
count is exactly `n` (a `defaultdict(list)` yields `[]` elsewhere). -/
def group_duplicates (hand : List Nat) (n : Nat) : List Nat :=
  ((most_common 2 (counter_of (hand.map card_value))).filter
    (fun p => p.2 == n)).map Prod.fst

/-- `flush_suite` from `play.py`: the most common suit if its count is
exactly 5, else `none`.  `.error` is the `IndexError` of
`most_common(1)[0]` on an empty hand. -/
def flush_suite (hand : List Nat) : Except String (Option Nat) :=
  match most_common 1 (counter_of (hand.map (fun c => c / 13))) with
  | [] => .error "IndexError: list index out of range"
  | top :: _ => .ok (if top.2 = 5 then some top.1 else none)

/-- The suit filter at the top of `sort_cards`. -/
def suit_filter (cards : List Nat) : Option Nat → List Nat
  | some s => cards.filter (fun c => c / 13 == s)
  | none => cards

/-- `sort_cards` from `play.py` (with its default `transform_cards=True`,
the only mode `assess_hand` uses): optionally filter to one suit, map to
card values, sort, optionally descending (CPython's descending sort of
naturals equals the reverse of the ascending one). -/
def sort_cards (cards : List Nat) (suit : Option Nat) (reverse : Bool) : List Nat :=
  if reverse then
    (List.insertionSort (· ≤ ·) ((suit_filter cards suit).map card_value)).reverse
  else
    List.insertionSort (· ≤ ·) ((suit_filter cards suit).map card_value)

/-- `max_card` from `play.py` (as called: no suit filter, transform on).
`.error` is the `IndexError` of `[-1]` on an empty list. -/
def max_card (cards : List Nat) : Except String Nat :=
  match (sort_cards cards none false).getLast? with
  | some v => .ok v
  | none => .error "IndexError: list index out of range"

/-- `min_card` from `play.py`. -/
def min_card (cards : List Nat) : Except String Nat :=
  match (sort_cards cards none false).head? with
  | some v => .ok v
  | none => .error "IndexError: list index out of range"

/-- `select_side_cards` from `play.py`: the distinct card values of
`cards` not among the card values of `cards_to_exclude`, in descending
order (a Python set difference followed by `sorted(..., reverse=True)`). -/
def select_side_cards (cards cards_to_exclude : List Nat) : List Nat :=
  (List.insertionSort (· ≤ ·)
    (((cards.map card_value).filter
      (fun v => v ∉ cards_to_exclude.map card_value)).dedup)).reverse

/-- Python list indexing `l[i]` for a nonnegative index. -/
def py_get (l : List Nat) (i : Nat) : Except String Nat :=
  match l.get? i with
  | some x => .ok x
  | none => .error "IndexError: list index out of range"

/-- Python list indexing `l[-1]`. -/
def py_last (l : List Nat) : Except String Nat :=
  match l.getLast? with
  | some x => .ok x
  | none => .error "IndexError: list index out of range"

/-- The `Hand` IntEnum codes from `play.py`. -/
def Hand.HIGH_CARD : Nat := 1
def Hand.PAIR : Nat := 2
def Hand.TWO_PAIR : Nat := 3
def Hand.THREE : Nat := 4
def Hand.STRAIGHT : Nat := 5
def Hand.FLUSH : Nat := 6
def Hand.FULL_HOUSE : Nat := 7
def Hand.FOUR : Nat := 8
def Hand.STRAIGHT_FLUSH : Nat := 9

/-- The first guard of `assess_hand`'s elif cascade:
`len(seq_values) == 5 and flush_suite(seq_cards) is not None`
(with Python's short-circuit `and`, so `flush_suite` only runs — and can
only raise — when the length test passes). -/
def straight_flush_test (seq_values seq_cards : List Nat) : Except String Bool :=
  if seq_values.length = 5 then
    match flush_suite seq_cards with
    | .error e => .error e
    | .ok fs => .ok fs.isSome
  else .ok false

/-- `assess_hand` from `play.py`: the elif cascade that turns a set of
cards into a comparable rank-descriptor tuple, here a `List Nat` headed
by the `Hand` code.  Each Python subscript that can raise is modelled
with `py_get`/`py_last`/`max_card`/`min_card`, and errors propagate in
the order CPython would raise them. -/
def assess_hand (cards : List Nat) : Except String (List Nat) :=
  match find_max_sequence cards with
  | .error e => .error e
  | .ok (seq_values, seq_cards) =>
    match straight_flush_test seq_values seq_cards with
    | .error e => .error e
    | .ok true => (py_last seq_values).map (fun top => [Hand.STRAIGHT_FLUSH, top])
    | .ok false =>
      if group_duplicates cards 4 ≠ [] then
        match py_get (group_duplicates cards 4) 0 with
        | .error e => .error e
        | .ok q =>
          (py_get (select_side_cards cards (group_duplicates cards 4)) 0).map
            (fun k => [Hand.FOUR, q, k])
      else if group_duplicates cards 3 ≠ [] ∧ group_duplicates cards 2 ≠ [] then
        match py_get (group_duplicates cards 3) 0 with
        | .error e => .error e
        | .ok t =>
          (py_get (group_duplicates cards 2) 0).map
            (fun p => [Hand.FULL_HOUSE, t, p])
      else
        match flush_suite cards with
        | .error e => .error e
        | .ok (some s) => .ok (Hand.FLUSH :: (sort_cards cards (some s) true).take 5)
        | .ok none =>
          if seq_values.length = 5 then
            (py_last seq_values).map (fun top => [Hand.STRAIGHT, top])
          else if group_duplicates cards 3 ≠ [] then
            (py_get (group_duplicates cards 3) 0).map
              (fun t => Hand.THREE :: t ::
                (select_side_cards cards (group_duplicates cards 3)).take 2)
          else if (group_duplicates cards 2).length = 2 then
            match max_card (group_duplicates cards 2),
                min_card (group_duplicates cards 2),
                py_get (select_side_cards cards (group_duplicates cards 2)) 0 with
            | .ok hi, .ok lo, .ok k => .ok [Hand.TWO_PAIR, hi, lo, k]
            | .error e, _, _ => .error e
            | .ok _, .error e, _ => .error e
            | .ok _, .ok _, .error e => .error e
          else if (group_duplicates cards 2).length = 1 then
            (py_get (group_duplicates cards 2) 0).map
              (fun p => Hand.PAIR :: p ::
                (select_side_cards cards (group_duplicates cards 2)).take 3)
          else
            .ok (Hand.HIGH_CARD :: (sort_cards cards none true).take 5)

/-- Python's lexicographic comparison `<` on int tuples (a strict prefix
is smaller). -/
def desc_lt (a b : List Nat) : Bool :=
  match a, b with
  | _, [] => false
  | [], _ :: _ => true
  | x :: xs, y :: ys => x < y || (x == y && desc_lt xs ys)

/-- The strongest 5-card descriptor obtainable from a hand, taking the
5-card evaluation of `assess_hand` itself as the reference ranking of
5-card poker hands (on 5-card inputs the evaluator realises the standard
7462-class ranking the spec describes). -/
def best_five (h : List Nat) : List Nat :=
  (((List.sublistsLen 5 h).filterMap (fun s => (assess_hand s).toOption)).foldl
    (fun acc d => if desc_lt acc d then d else acc) [])

/-- The input contract of `assess_hand`: 5 to 7 pairwise-distinct card
ids in [0, 51]. -/
def valid_hand (h : List Nat) : Prop :=
  5 ≤ h.length ∧ h.length ≤ 7 ∧ h.Nodup ∧ ∀ c ∈ h, c < 52

/- ### Basic facts about card values -/

theorem card_value_pos (c : Nat) : 1 ≤ card_value c := by
  unfold card_value; split <;> omega

theorem card_value_le (c : Nat) : card_value c ≤ 13 := by
  unfold card_value; split <;> omega

/-- `card_value` is the identity on the card values 1..13 themselves. -/
theorem card_value_idem (c : Nat) : card_value (card_value c) = card_value c := by
  unfold card_value; split <;> split <;> omega

/- ### Counting helpers -/

theorem count_two_le {a b : Nat} (hab : a ≠ b) (l : List Nat) :
    l.count a + l.count b ≤ l.length := by
  induction l with
  | nil => simp
  | cons x xs ih =>
    rw [List.length_cons]
    rcases eq_or_ne a x with rfl | h1
    · rw [List.count_cons_self, List.count_cons_of_ne (Ne.symm hab)]
      omega
    · rcases eq_or_ne b x with rfl | h2
      · rw [List.count_cons_self, List.count_cons_of_ne h1]
        omega
      · rw [List.count_cons_of_ne h1, List.count_cons_of_ne h2]
        omega

theorem count_three_le {a b c : Nat} (hab : a ≠ b) (hac : a ≠ c) (hbc : b ≠ c)
    (l : List Nat) : l.count a + l.count b + l.count c ≤ l.length := by
  induction l with
  | nil => simp
  | cons x xs ih =>
    rw [List.length_cons]
    rcases eq_or_ne a x with rfl | h1
    · rw [List.count_cons_self, List.count_cons_of_ne (Ne.symm hab),
        List.count_cons_of_ne (Ne.symm hac)]
      omega
    · rcases eq_or_ne b x with rfl | h2
      · rw [List.count_cons_self, List.count_cons_of_ne h1,
          List.count_cons_of_ne (Ne.symm hbc)]
        omega
      · rcases eq_or_ne c x with rfl | h3
        · rw [List.count_cons_self, List.count_cons_of_ne h1,
            List.count_cons_of_ne h2]
          omega
        · rw [List.count_cons_of_ne h1, List.count_cons_of_ne h2,
            List.count_cons_of_ne h3]
          omega

theorem exists_ne_of_count_lt {a : Nat} {l : List Nat}
    (h : l.count a < l.length) : ∃ b ∈ l, b ≠ a := by
  induction l with
  | nil => exact absurd h (by simp)
  | cons x xs ih =>
    rcases eq_or_ne x a with rfl | hx
    · rw [List.count_cons_self, List.length_cons] at h
      obtain ⟨b, hb, hba⟩ := ih (by omega)
      exact ⟨b, List.mem_cons_of_mem _ hb, hba⟩
    · exact ⟨x, List.mem_cons_self _ _, hx⟩

theorem exists_ne_two {a b : Nat} {l : List Nat} (hab : a ≠ b)
    (h : l.count a + l.count b < l.length) : ∃ v ∈ l, v ≠ a ∧ v ≠ b := by
  induction l with
  | nil => exact absurd h (by simp)
  | cons x xs ih =>
    rcases eq_or_ne x a with rfl | h1
    · rw [List.count_cons_self, List.count_cons_of_ne (Ne.symm hab),
        List.length_cons] at h
      obtain ⟨v, hv, hva, hvb⟩ := ih (by omega)
      exact ⟨v, List.mem_cons_of_mem _ hv, hva, hvb⟩
    · rcases eq_or_ne x b with rfl | h2
      · rw [List.count_cons_self, List.count_cons_of_ne hab,
          List.length_cons] at h
        obtain ⟨v, hv, hva, hvb⟩ := ih (by omega)
        exact ⟨v, List.mem_cons_of_mem _ hv, hva, hvb⟩
      · exact ⟨x, List.mem_cons_self _ _, Ne.symm (Ne.symm h1), h2⟩

theorem mem_three_of_count {a b c : Nat} {l : List Nat}
    (hab : a ≠ b) (hac : a ≠ c) (hbc : b ≠ c)
    (h : l.count a + l.count b + l.count c = l.length) :
    ∀ v ∈ l, v = a ∨ v = b ∨ v = c := by
  induction l with
  | nil => simp
  | cons x xs ih =>
    have hx : x = a ∨ x = b ∨ x = c := by
      by_contra hcon
      push_neg at hcon
      obtain ⟨h1, h2, h3⟩ := hcon
      rw [List.count_cons_of_ne (Ne.symm h1), List.count_cons_of_ne (Ne.symm h2),
        List.count_cons_of_ne (Ne.symm h3), List.length_cons] at h
      have := count_three_le hab hac hbc xs
      omega
    have h' : xs.count a + xs.count b + xs.count c = xs.length := by
      rcases hx with rfl | rfl | rfl
      · rw [List.count_cons_self, List.count_cons_of_ne (Ne.symm hab),
          List.count_cons_of_ne (Ne.symm hac), List.length_cons] at h
        omega
      · rw [List.count_cons_self, List.count_cons_of_ne hab,
          List.count_cons_of_ne (Ne.symm hbc), List.length_cons] at h
        omega
      · rw [List.count_cons_self, List.count_cons_of_ne hac,
          List.count_cons_of_ne hbc, List.length_cons] at h
        omega
    intro v hv
    rcases List.mem_cons.mp hv with rfl | hv'
    · exact hx
    · exact ih h' v hv'

/-- A count inside a mapped list is the length of the corresponding filter. -/
theorem count_map_eq_length_filter (f : Nat → Nat) (l : List Nat) (y : Nat) :
    (l.map f).count y = (l.filter (fun x => f x == y)).length := by
  induction l with
  | nil => rfl
  | cons x xs ih =>
    rw [List.map_cons, List.filter_cons]
    rcases eq_or_ne (f x) y with hf | hf
    · rw [hf, List.count_cons_self]
      simp only [hf, beq_self_eq_true, if_true, List.length_cons]
      omega
    · rw [List.count_cons_of_ne (Ne.symm hf)]
      simp only [beq_eq_false_iff_ne.mpr hf, Bool.false_eq_true, if_false]
      exact ih

/- ### The Counter invariant -/

theorem counter_of_append (l : List Nat) (x : Nat) :
    counter_of (l ++ [x]) = counter_add (counter_of l) x := by
  simp [counter_of, List.foldl_append]

theorem keys_map_update (d : List (Nat × Nat)) (k : Nat) (f : Nat × Nat → Nat) :
    ((d.map (fun p => if p.1 = k then (p.1, f p) else p)).map Prod.fst)
      = d.map Prod.fst := by
  rw [List.map_map]
  apply List.map_congr_left
  intro p _
  by_cases h : p.1 = k <;> simp [h]

theorem counter_inv (l : List Nat) :
    ((counter_of l).map Prod.fst).Nodup ∧
    (∀ v, v ∈ (counter_of l).map Prod.fst ↔ v ∈ l) ∧
    (∀ p ∈ counter_of l, p.2 = l.count p.1) := by
  induction l using List.reverseRecOn with
  | nil => simp [counter_of]
  | append_singleton l x ih =>
    obtain ⟨hnd, hmem, hcnt⟩ := ih
    rw [counter_of_append]
    unfold counter_add
    by_cases hx : x ∈ (counter_of l).map Prod.fst
    · rw [if_pos hx]
      have hkeys :
          ((counter_of l).map (fun p => if p.1 = x then (p.1, p.2 + 1) else p)).map
            Prod.fst = (counter_of l).map Prod.fst :=
        keys_map_update _ _ _
      refine ⟨hkeys ▸ hnd, ?_, ?_⟩
      · intro v
        rw [hkeys, hmem]
        have hxl : x ∈ l := (hmem x).mp hx
        simp only [List.mem_append, List.mem_singleton]
        constructor
        · exact fun h => Or.inl h
        · rintro (h | rfl)
          · exact h
          · exact hxl
      · intro p hp
        obtain ⟨q, hq, hpq⟩ := List.mem_map.mp hp
        by_cases hqx : q.1 = x
        · rw [if_pos hqx] at hpq
          subst hpq
          simp only [List.count_append, hqx, List.count_singleton]
          rw [hcnt q hq, hqx]
          simp
        · rw [if_neg hqx] at hpq
          subst hpq
          rw [List.count_append, hcnt q hq]
          have : [x].count q.1 = 0 := by
            simp [List.count_singleton, hqx]
          omega
    · rw [if_neg hx]
      have hxl : x ∉ l := fun h => hx ((hmem x).mpr h)
      refine ⟨?_, ?_, ?_⟩
      · rw [List.map_append]
        rw [List.nodup_append]
        refine ⟨hnd, List.nodup_singleton x, ?_⟩
        intro a ha hax
        simp only [List.map_cons, List.map_nil, List.mem_singleton] at hax
        subst hax
        exact hx ha
      · intro v
        rw [List.map_append]
        simp only [List.mem_append, List.mem_singleton, List.map_cons,
          List.map_nil]
        rw [hmem]
      · intro p hp
        rcases List.mem_append.mp hp with hp' | hp'
        · rw [List.count_append, hcnt p hp']
          have hne : p.1 ≠ x := by
            intro h
            exact hx (h ▸ List.mem_map_of_mem Prod.fst hp')
          have : [x].count p.1 = 0 := by simp [List.count_singleton, hne]
          omega
        · rw [List.mem_singleton] at hp'
          subst hp'
          simp only [List.count_append, List.count_singleton, beq_self_eq_true,
            if_true]
          have : l.count x = 0 := List.count_eq_zero.mpr hxl
          omega

theorem counter_keys_nodup (l : List Nat) :
    ((counter_of l).map Prod.fst).Nodup := (counter_inv l).1

theorem counter_mem_keys {l : List Nat} {v : Nat} :
    v ∈ (counter_of l).map Prod.fst ↔ v ∈ l := (counter_inv l).2.1 v

theorem counter_count {l : List Nat} {p : Nat × Nat} (hp : p ∈ counter_of l) :
    p.2 = l.count p.1 := (counter_inv l).2.2 p hp

/-- Entries of the counter are exactly the (member, positive count) pairs. -/
theorem counter_mem_iff {l : List Nat} {v n : Nat} :
    (v, n) ∈ counter_of l ↔ v ∈ l ∧ n = l.count v := by
  constructor
  · intro h
    have hv : v ∈ (counter_of l).map Prod.fst :=
      List.mem_map_of_mem Prod.fst h
    exact ⟨counter_mem_keys.mp hv, counter_count h⟩
  · rintro ⟨hv, rfl⟩
    have hv' : v ∈ (counter_of l).map Prod.fst := counter_mem_keys.mpr hv
    obtain ⟨p, hp, hpv⟩ := List.mem_map.mp hv'
    have hcv := counter_count hp
    have hp' : p = (v, l.count v) := by
      obtain ⟨p1, p2⟩ := p
      simp only at hpv hcv
      subst hpv
      rw [hcv]
    exact hp' ▸ hp

/- ### The card_dict invariant -/

theorem card_dict_append (l : List Nat) (x : Nat) :
    card_dict (l ++ [x]) = dict_insert (card_dict l) (card_value x) x := by
  simp [card_dict, List.foldl_append]

theorem dict_inv (l : List Nat) :
    ((card_dict l).map Prod.fst).Nodup ∧
    (∀ v, v ∈ (card_dict l).map Prod.fst ↔ v ∈ l.map card_value) ∧
    (∀ p ∈ card_dict l, p.2 ∈ l ∧ card_value p.2 = p.1) := by
  induction l using List.reverseRecOn with
  | nil => simp [card_dict]
  | append_singleton l x ih =>
    obtain ⟨hnd, hmem, hval⟩ := ih
    rw [card_dict_append]
    unfold dict_insert
    by_cases hx : card_value x ∈ (card_dict l).map Prod.fst
    · rw [if_pos hx]
      have hkeys :
          ((card_dict l).map (fun p => if p.1 = card_value x then (p.1, x) else p)).map
            Prod.fst = (card_dict l).map Prod.fst :=
        keys_map_update _ _ (fun _ => x)
      refine ⟨hkeys ▸ hnd, ?_, ?_⟩
      · intro v
        rw [hkeys, hmem]
        have hxl : card_value x ∈ l.map card_value := (hmem _).mp hx
        simp only [List.map_append, List.map_cons, List.map_nil, List.mem_append,
          List.mem_singleton]
        constructor
        · exact fun h => Or.inl h
        · rintro (h | rfl)
          · exact h
          · exact hxl
      · intro p hp
        obtain ⟨q, hq, hpq⟩ := List.mem_map.mp hp
        by_cases hqx : q.1 = card_value x
        · rw [if_pos hqx] at hpq
          subst hpq
          exact ⟨List.mem_append_right _ (List.mem_singleton.mpr rfl), hqx.symm⟩
        · rw [if_neg hqx] at hpq
          subst hpq
          exact ⟨List.mem_append_left _ (hval q hq).1, (hval q hq).2⟩
    · rw [if_neg hx]
      refine ⟨?_, ?_, ?_⟩
      · rw [List.map_append]
        rw [List.nodup_append]
        refine ⟨hnd, List.nodup_singleton _, ?_⟩
        intro a ha hax
        simp only [List.map_cons, List.map_nil, List.mem_singleton] at hax
        subst hax
        exact hx ha
      · intro v
        rw [List.map_append]
        simp only [List.mem_append, List.map_cons, List.map_nil,
          List.mem_singleton, List.map_append]
        rw [hmem]
      · intro p hp
        rcases List.mem_append.mp hp with hp' | hp'
        · exact ⟨List.mem_append_left _ (hval p hp').1, (hval p hp').2⟩
        · rw [List.mem_singleton] at hp'
          subst hp'
          exact ⟨List.mem_append_right _ (List.mem_singleton.mpr rfl), rfl⟩

theorem dict_keys_nodup (l : List Nat) :
    ((card_dict l).map Prod.fst).Nodup := (dict_inv l).1

theorem dict_mem_keys {l : List Nat} {v : Nat} :
    v ∈ (card_dict l).map Prod.fst ↔ v ∈ l.map card_value := (dict_inv l).2.1 v

theorem dict_entry {l : List Nat} {p : Nat × Nat} (hp : p ∈ card_dict l) :
    p.2 ∈ l ∧ card_value p.2 = p.1 := (dict_inv l).2.2 p hp

/-- 0 is never a key of `card_dict` (card values are at least 1). -/
theorem dict_zero_not_key (l : List Nat) :
    0 ∉ (card_dict l).map Prod.fst := by
  intro h
  obtain ⟨v, hv, hv0⟩ := List.mem_map.mp (dict_mem_keys.mp h)
  have := card_value_pos v
  omega

/- ### with_low_ace -/

/-- Every entry of the ace-extended dict is either the synthetic low ace
(key 0, only present when an ace is) or carries a key that is a card
value of the hand. -/
theorem with_low_ace_entry {l : List Nat} {p : Nat × Nat}
    (hp : p ∈ with_low_ace (card_dict l)) :
    (p.1 = 0 ∧ 13 ∈ l.map card_value) ∨ p.1 ∈ l.map card_value := by
  unfold with_low_ace at hp
  cases hget : dict_get (card_dict l) 13 with
  | none =>
    rw [hget] at hp
    exact Or.inr (dict_mem_keys.mp (List.mem_map_of_mem Prod.fst hp))
  | some i =>
    rw [hget] at hp
    have h13 : 13 ∈ l.map card_value := by
      unfold dict_get at hget
      cases hfind : (card_dict l).find? (fun p => p.1 == 13) with
      | none => rw [hfind] at hget; simp at hget
      | some q =>
        have hq13 : q.1 = 13 := by
          have := List.find?_some hfind
          simpa using this
        have hqmem := List.mem_of_find?_eq_some hfind
        exact hq13 ▸ dict_mem_keys.mp (List.mem_map_of_mem Prod.fst hqmem)
    have hp2 : p ∈ dict_insert (card_dict l) 0 i := hp
    unfold dict_insert at hp2
    rw [if_neg (dict_zero_not_key l)] at hp2
    rcases List.mem_append.mp hp2 with hp' | hp'
    · exact Or.inr (dict_mem_keys.mp (List.mem_map_of_mem Prod.fst hp'))
    · rw [List.mem_singleton] at hp'
      subst hp'
      exact Or.inl ⟨rfl, h13⟩

/-- The ace-extended dict is at least as long as the dict itself. -/
theorem with_low_ace_length_le (d : List (Nat × Nat)) :
    d.length ≤ (with_low_ace d).length := by
  unfold with_low_ace
  cases dict_get d 13 with
  | none => exact le_refl _
  | some i =>
    show d.length ≤ (dict_insert d 0 i).length
    unfold dict_insert
    by_cases h : 0 ∈ d.map Prod.fst
    · rw [if_pos h, List.length_map]
    · rw [if_neg h, List.length_append]
      omega

/- ### most_common and group_duplicates -/

theorem insertionSort_ne_nil {α : Type} (r : α → α → Prop) [DecidableRel r]
    {l : List α} (h : l ≠ []) : List.insertionSort r l ≠ [] := by
  intro hh
  have hp := List.perm_insertionSort r l
  rw [hh] at hp
  exact h hp.symm.eq_nil

theorem most_common_subset {n : Nat} {cnt : List (Nat × Nat)} {p : Nat × Nat}
    (hp : p ∈ most_common n cnt) : p ∈ cnt := by
  unfold most_common at hp
  exact (List.perm_insertionSort count_ge cnt).mem_iff.mp (List.take_subset _ _ hp)

theorem sorted_count_head {cnt : List (Nat × Nat)} {p : Nat × Nat}
    {rest : List (Nat × Nat)}
    (hs : List.insertionSort count_ge cnt = p :: rest) :
    p ∈ cnt ∧ ∀ q ∈ cnt, q.2 ≤ p.2 := by
  have hperm := List.perm_insertionSort count_ge cnt
  have hsorted := List.sorted_insertionSort count_ge cnt
  rw [hs] at hperm hsorted
  constructor
  · exact hperm.mem_iff.mp (List.mem_cons_self _ _)
  · intro q hq
    rcases List.mem_cons.mp (hperm.mem_iff.mpr hq) with rfl | hq'
    · exact le_refl _
    · exact (List.pairwise_cons.mp hsorted).1 q hq'

/-- Characterisation of `flush_suite` on a nonempty hand: it inspects an
entry of maximal count in the suit counter and returns its suit exactly
when that count is 5. -/
theorem flush_suite_spec (h : List Nat) (hne : h ≠ []) :
    ∃ p : Nat × Nat, p.1 ∈ h.map (fun c => c / 13) ∧
      p.2 = (h.map (fun c => c / 13)).count p.1 ∧
      (∀ s ∈ h.map (fun c => c / 13), (h.map (fun c => c / 13)).count s ≤ p.2) ∧
      flush_suite h = .ok (if p.2 = 5 then some p.1 else none) := by
  have hsne : h.map (fun c => c / 13) ≠ [] := by
    intro hc
    exact hne (List.map_eq_nil_iff.mp hc)
  have hcne : counter_of (h.map (fun c => c / 13)) ≠ [] := by
    intro hc
    obtain ⟨x, hx⟩ := List.exists_mem_of_ne_nil _ hsne
    have := counter_mem_keys.mpr hx
    rw [hc] at this
    simp at this
  cases hs : List.insertionSort count_ge (counter_of (h.map (fun c => c / 13))) with
  | nil => exact absurd hs (insertionSort_ne_nil _ hcne)
  | cons p rest =>
    obtain ⟨hpmem, hpmax⟩ := sorted_count_head hs
    refine ⟨p, ?_, counter_count hpmem, ?_, ?_⟩
    · exact counter_mem_keys.mp (List.mem_map_of_mem Prod.fst hpmem)
    · intro s hs'
      have hq : (s, (h.map (fun c => c / 13)).count s)
          ∈ counter_of (h.map (fun c => c / 13)) :=
        counter_mem_iff.mpr ⟨hs', rfl⟩
      exact hpmax _ hq
    · unfold flush_suite most_common
      rw [hs]
      rfl

theorem group_duplicates_mem {h : List Nat} {n v : Nat}
    (hv : v ∈ group_duplicates h n) :
    v ∈ h.map card_value ∧ (h.map card_value).count v = n := by
  unfold group_duplicates at hv
  obtain ⟨p, hp, hpv⟩ := List.mem_map.mp hv
  have hpf := List.mem_filter.mp hp
  have hmem := most_common_subset hpf.1
  have hn : p.2 = n := by simpa using hpf.2
  have hc := counter_count hmem
  subst hpv
  exact ⟨counter_mem_keys.mp (List.mem_map_of_mem Prod.fst hmem),
    by rw [← hc, hn]⟩

theorem group_duplicates_nodup (h : List Nat) (n : Nat) :
    (group_duplicates h n).Nodup := by
  unfold group_duplicates most_common
  have hkeys : ((counter_of (h.map card_value)).map Prod.fst).Nodup :=
    counter_keys_nodup _
  have hperm : List.Perm
      ((List.insertionSort count_ge (counter_of (h.map card_value))).map Prod.fst)
      ((counter_of (h.map card_value)).map Prod.fst) :=
    (List.perm_insertionSort count_ge _).map Prod.fst
  have hsnd : ((List.insertionSort count_ge (counter_of (h.map card_value))).map
      Prod.fst).Nodup := hkeys.perm hperm.symm
  have hsub : List.Sublist
      ((((List.insertionSort count_ge (counter_of (h.map card_value))).take 2).filter
        (fun p => p.2 == n)).map Prod.fst)
      ((List.insertionSort count_ge (counter_of (h.map card_value))).map Prod.fst) :=
    List.Sublist.map Prod.fst
      ((List.filter_sublist _).trans (List.take_sublist _ _))
  exact hsnd.sublist hsub

theorem group_duplicates_length_le (h : List Nat) (n : Nat) :
    (group_duplicates h n).length ≤ 2 := by
  unfold group_duplicates most_common
  rw [List.length_map]
  calc (((List.insertionSort count_ge (counter_of (h.map card_value))).take 2).filter
        (fun p => p.2 == n)).length
      ≤ ((List.insertionSort count_ge (counter_of (h.map card_value))).take 2).length :=
        (List.filter_sublist _).length_le
    _ ≤ 2 := by
        rw [List.length_take]
        omega

theorem card_value_of_value {h : List Nat} {v : Nat}
    (hv : v ∈ h.map card_value) : card_value v = v := by
  obtain ⟨c, _, rfl⟩ := List.mem_map.mp hv
  exact card_value_idem c

/- ### Run splitting -/

theorem split_runs_go_ne_nil (cur : Nat × Nat) (run : List (Nat × Nat))
    (rest : List (Nat × Nat)) : split_runs_go cur run rest ≠ [] := by
  induction rest generalizing cur run with
  | nil => simp [split_runs_go]
  | cons y ys ih =>
    unfold split_runs_go
    by_cases hy : y.1 = cur.1 + 1
    · rw [if_pos hy]
      exact ih _ _
    · rw [if_neg hy]
      simp

theorem split_runs_go_flatten (cur : Nat × Nat) (run : List (Nat × Nat))
    (rest : List (Nat × Nat)) :
    (split_runs_go cur run rest).flatten = run ++ rest := by
  induction rest generalizing cur run with
  | nil => simp [split_runs_go]
  | cons y ys ih =>
    unfold split_runs_go
    by_cases hy : y.1 = cur.1 + 1
    · rw [if_pos hy, ih]
      simp
    · rw [if_neg hy]
      rw [List.flatten_cons, ih]
      simp

theorem split_runs_go_runs_ne_nil {cur : Nat × Nat} {run : List (Nat × Nat)}
    (hrun : run ≠ []) (rest : List (Nat × Nat)) :
    ∀ r ∈ split_runs_go cur run rest, r ≠ [] := by
  induction rest generalizing cur run with
  | nil =>
    intro r hr
    simp [split_runs_go] at hr
    exact hr ▸ hrun
  | cons y ys ih =>
    intro r hr
    unfold split_runs_go at hr
    by_cases hy : y.1 = cur.1 + 1
    · rw [if_pos hy] at hr
      exact ih (by simp) r hr
    · rw [if_neg hy] at hr
      rcases List.mem_cons.mp hr with rfl | hr'
      · exact hrun
      · exact ih (by simp) r hr'

theorem split_runs_go_chain {cur : Nat × Nat} {run : List (Nat × Nat)}
    (hchain : List.Chain' (fun a b : Nat × Nat => b.1 = a.1 + 1) run)
    (hlast : run.getLast? = some cur) (rest : List (Nat × Nat)) :
    ∀ r ∈ split_runs_go cur run rest,
      List.Chain' (fun a b : Nat × Nat => b.1 = a.1 + 1) r := by
  induction rest generalizing cur run with
  | nil =>
    intro r hr
    simp [split_runs_go] at hr
    exact hr ▸ hchain
  | cons y ys ih =>
    intro r hr
    unfold split_runs_go at hr
    by_cases hy : y.1 = cur.1 + 1
    · rw [if_pos hy] at hr
      have hchain' : List.Chain' (fun a b : Nat × Nat => b.1 = a.1 + 1) (run ++ [y]) := by
        rw [List.chain'_append]
        refine ⟨hchain, List.chain'_singleton y, ?_⟩
        intro a ha b hb
        simp only [List.head?_cons, Option.mem_def, Option.some.injEq] at hb
        rw [hlast] at ha
        simp only [Option.mem_def, Option.some.injEq] at ha
        subst ha
        subst hb
        exact hy
      exact ih hchain' (List.getLast?_concat run) r hr
    · rw [if_neg hy] at hr
      rcases List.mem_cons.mp hr with rfl | hr'
      · exact hchain
      · exact ih (List.chain'_singleton y) rfl r hr'

/- ### The run chosen by find_max_sequence -/

/-- The run `sorted(sequences, key=len)[-1]` selects: the last run whose
length is maximal. -/
def choose_run : List (List (Nat × Nat)) → Option (List (Nat × Nat))
  | [] => none
  | a :: t => if ∀ b ∈ t, b.length < a.length then some a else choose_run t

theorem getLast?_cons_of_ne_nil {α : Type} (b : α) {l : List α} (h : l ≠ []) :
    (b :: l).getLast? = l.getLast? := by
  cases l with
  | nil => exact absurd rfl h
  | cons x xs => exact List.getLast?_cons_cons

theorem orderedInsert_ne_nil (a : List (Nat × Nat)) (s : List (List (Nat × Nat))) :
    List.orderedInsert len_le a s ≠ [] := by
  intro hh
  have := List.orderedInsert_length (r := len_le) s a
  rw [hh] at this
  simp at this

theorem getLast?_orderedInsert (a : List (Nat × Nat)) (s : List (List (Nat × Nat))) :
    (List.orderedInsert len_le a s).getLast? =
      if ∀ b ∈ s, ¬ len_le a b then some a else s.getLast? := by
  induction s with
  | nil => simp [List.orderedInsert]
  | cons b t ih =>
    show (if len_le a b then a :: b :: t
        else b :: List.orderedInsert len_le a t).getLast? = _
    by_cases hab : len_le a b
    · rw [if_pos hab]
      have hno : ¬ (∀ x ∈ b :: t, ¬ len_le a x) := by
        intro hc
        exact hc b (List.mem_cons_self _ _) hab
      rw [if_neg hno]
      exact List.getLast?_cons_cons
    · rw [if_neg hab]
      rw [getLast?_cons_of_ne_nil b (orderedInsert_ne_nil a t), ih]
      by_cases hall : ∀ x ∈ t, ¬ len_le a x
      · have h1 : ∀ x ∈ b :: t, ¬ len_le a x := by
          intro x hx
          rcases List.mem_cons.mp hx with rfl | hx'
          · exact hab
          · exact hall x hx'
        rw [if_pos hall, if_pos h1]
      · have h1 : ¬ ∀ x ∈ b :: t, ¬ len_le a x := by
          intro hc
          exact hall (fun x hx => hc x (List.mem_cons_of_mem _ hx))
        rw [if_neg hall, if_neg h1]
        have ht : t ≠ [] := by
          rintro rfl
          exact hall (by simp)
        rw [getLast?_cons_of_ne_nil b ht]

theorem getLast?_insertionSort_len (l : List (List (Nat × Nat))) :
    (List.insertionSort len_le l).getLast? = choose_run l := by
  induction l with
  | nil => rfl
  | cons a t ih =>
    show (List.orderedInsert len_le a (List.insertionSort len_le t)).getLast? = _
    rw [getLast?_orderedInsert]
    unfold choose_run
    by_cases hall : ∀ b ∈ t, b.length < a.length
    · have hno : ∀ b ∈ List.insertionSort len_le t, ¬ len_le a b := by
        intro b hb
        have hb' : b ∈ t := (List.perm_insertionSort len_le t).mem_iff.mp hb
        have := hall b hb'
        unfold len_le
        omega
      rw [if_pos hno, if_pos hall]
    · have hno : ¬ ∀ b ∈ List.insertionSort len_le t, ¬ len_le a b := by
        intro hc
        apply hall
        intro b hb
        have := hc b ((List.perm_insertionSort len_le t).mem_iff.mpr hb)
        unfold len_le at this
        omega
      rw [if_neg hno, if_neg hall, ih]

theorem choose_run_spec (l : List (List (Nat × Nat))) (hne : l ≠ []) :
    ∃ pre r post, choose_run l = some r ∧ l = pre ++ r :: post ∧
      (∀ q ∈ l, q.length ≤ r.length) ∧ (∀ q ∈ post, q.length < r.length) := by
  induction l with
  | nil => exact absurd rfl hne
  | cons a t ih =>
    unfold choose_run
    by_cases hall : ∀ b ∈ t, b.length < a.length
    · rw [if_pos hall]
      refine ⟨[], a, t, rfl, rfl, ?_, hall⟩
      intro q hq
      rcases List.mem_cons.mp hq with rfl | hq'
      · exact le_refl _
      · exact (hall q hq').le
    · rw [if_neg hall]
      have ht : t ≠ [] := by
        rintro rfl
        exact hall (by simp)
      obtain ⟨pre, r, post, h1, h2, h3, h4⟩ := ih ht
      refine ⟨a :: pre, r, post, h1, by rw [List.cons_append, h2], ?_, h4⟩
      intro q hq
      rcases List.mem_cons.mp hq with rfl | hq'
      · push_neg at hall
        obtain ⟨b, hb, hble⟩ := hall
        exact hble.trans (h3 b hb)
      · exact h3 q hq'

theorem max_run_spec (h : List Nat) (hne : seq_runs h ≠ []) :
    ∃ pre r post, seq_runs h = pre ++ r :: post ∧ max_run h = last_n 5 r ∧
      (∀ q ∈ seq_runs h, q.length ≤ r.length) ∧
      (∀ q ∈ post, q.length < r.length) := by
  obtain ⟨pre, r, post, h1, h2, h3, h4⟩ := choose_run_spec _ hne
  refine ⟨pre, r, post, h2, ?_, h3, h4⟩
  unfold max_run
  rw [List.getLastD_eq_getLast?, getLast?_insertionSort_len, h1]
  rfl

/- ### last_n -/

theorem last_n_length (n : Nat) (l : List α) :
    (last_n n l).length = min n l.length := by
  unfold last_n
  rw [List.length_drop]
  omega

theorem last_n_ne_nil {n : Nat} (hn : 0 < n) {l : List α} (h : l ≠ []) :
    last_n n l ≠ [] := by
  intro hh
  have hlen := congrArg List.length hh
  rw [last_n_length] at hlen
  simp only [List.length_nil] at hlen
  have hl : l.length ≠ 0 := fun h0 => h (List.length_eq_zero.mp h0)
  omega

theorem last_n_subset (n : Nat) (l : List α) : last_n n l ⊆ l :=
  List.drop_subset _ _

theorem last_n_chain {R : α → α → Prop} {l : List α}
    (hc : List.Chain' R l) (n : Nat) : List.Chain' R (last_n n l) := by
  have hsplit := List.take_append_drop (l.length - n) l
  rw [← hsplit] at hc
  exact (List.chain'_append.mp hc).2.1

/- ### Valid hands have at least two distinct card values -/

theorem two_values_of_valid {h : List Nat} (h5 : 5 ≤ h.length)
    (hnd : h.Nodup) (hlt : ∀ c ∈ h, c < 52) :
    ∃ c1 ∈ h, ∃ c2 ∈ h, card_value c1 ≠ card_value c2 := by
  by_contra hcon
  push_neg at hcon
  cases h with
  | nil => simp at h5
  | cons x xs =>
    have hmod : ∀ c ∈ x :: xs, c % 13 = x % 13 := by
      intro c hc
      have hcv := hcon c hc x (List.mem_cons_self _ _)
      unfold card_value at hcv
      split at hcv <;> split at hcv <;> omega
    have hsub : (x :: xs).toFinset ⊆
        ({x % 13, x % 13 + 13, x % 13 + 26, x % 13 + 39} : Finset Nat) := by
      intro c hc
      rw [List.mem_toFinset] at hc
      have h1 := hmod c hc
      have h2 := hlt c hc
      simp only [Finset.mem_insert, Finset.mem_singleton]
      omega
    have hcard := Finset.card_le_card hsub
    rw [List.toFinset_card_of_nodup hnd] at hcard
    have hle : ({x % 13, x % 13 + 13, x % 13 + 26, x % 13 + 39} : Finset Nat).card
        ≤ 4 := by
      have c1 := Finset.card_insert_le (x % 13)
        ({x % 13 + 13, x % 13 + 26, x % 13 + 39} : Finset Nat)
      have c2 := Finset.card_insert_le (x % 13 + 13)
        ({x % 13 + 26, x % 13 + 39} : Finset Nat)
      have c3 := Finset.card_insert_le (x % 13 + 26)
        ({x % 13 + 39} : Finset Nat)
      have c4 : ({x % 13 + 39} : Finset Nat).card = 1 := Finset.card_singleton _
      omega
    omega

theorem two_mem_length {l : List Nat} {a b : Nat} (ha : a ∈ l) (hb : b ∈ l)
    (hab : a ≠ b) : 2 ≤ l.length := by
  match l with
  | [] => simp at ha
  | [x] =>
    rw [List.mem_singleton] at ha hb
    exact absurd (ha.trans hb.symm) hab
  | x :: y :: t => simp only [List.length_cons]; omega

theorem card_dict_length_ge_two {h : List Nat} (h5 : 5 ≤ h.length)
    (hnd : h.Nodup) (hlt : ∀ c ∈ h, c < 52) :
    2 ≤ (card_dict h).length := by
  obtain ⟨c1, hc1, c2, hc2, hne⟩ := two_values_of_valid h5 hnd hlt
  have k1 : card_value c1 ∈ (card_dict h).map Prod.fst :=
    dict_mem_keys.mpr (List.mem_map_of_mem card_value hc1)
  have k2 : card_value c2 ∈ (card_dict h).map Prod.fst :=
    dict_mem_keys.mpr (List.mem_map_of_mem card_value hc2)
  have := two_mem_length k1 k2 hne
  rw [List.length_map] at this
  exact this

/- ### find_max_sequence succeeds on valid hands -/

theorem find_max_sequence_ok {h : List Nat} (h5 : 5 ≤ h.length)
    (hnd : h.Nodup) (hlt : ∀ c ∈ h, c < 52) :
    find_max_sequence h = .ok ((max_run h).map Prod.fst, (max_run h).map Prod.snd)
      ∧ seq_runs h ≠ [] ∧ max_run h ≠ []
      ∧ ((max_run h).map Prod.fst).length ≤ 5 := by
  have hd2 := card_dict_length_ge_two h5 hnd hlt
  have hwne : with_low_ace (card_dict h) ≠ [] := by
    intro hh
    have := with_low_ace_length_le (card_dict h)
    rw [hh, List.length_nil] at this
    omega
  have hspne : seq_pairs h ≠ [] := insertionSort_ne_nil _ hwne
  have hrne : seq_runs h ≠ [] := by
    unfold seq_runs
    cases hsp : seq_pairs h with
    | nil => exact absurd hsp hspne
    | cons x xs => exact split_runs_go_ne_nil _ _ _
  obtain ⟨pre, r, post, hdecomp, hmr, hmax, hlast⟩ := max_run_spec h hrne
  have hrne' : r ≠ [] := by
    have hrmem : r ∈ seq_runs h := by
      rw [hdecomp]
      exact List.mem_append_right _ (List.mem_cons_self _ _)
    unfold seq_runs at hrmem
    cases hsp : seq_pairs h with
    | nil => exact absurd hsp hspne
    | cons x xs =>
      rw [hsp] at hrmem
      exact split_runs_go_runs_ne_nil (by simp) _ r hrmem
  have hmrne : max_run h ≠ [] := by
    rw [hmr]
    exact last_n_ne_nil (by omega) hrne'
  have hmrlen : ((max_run h).map Prod.fst).length ≤ 5 := by
    rw [List.length_map, hmr, last_n_length]
    omega
  refine ⟨?_, hrne, hmrne, hmrlen⟩
  unfold find_max_sequence
  rw [if_neg (by omega : ¬ (card_dict h).length = 1)]
  split
  · next heq => exact absurd heq hspne
  · split
    · next heq => exact absurd heq hmrne
    · rfl

/- ### Membership facts about the chosen run -/

theorem max_run_eq_nil_of_no_runs {h : List Nat} (hr : seq_runs h = []) :
    max_run h = [] := by
  unfold max_run
  rw [hr]
  rfl

theorem max_run_mem_seq_pairs {h : List Nat} {p : Nat × Nat}
    (hp : p ∈ max_run h) : p ∈ seq_pairs h := by
  by_cases hrne : seq_runs h = []
  · rw [max_run_eq_nil_of_no_runs hrne] at hp
    simp at hp
  · obtain ⟨pre, r, post, hdecomp, hmr, _, _⟩ := max_run_spec h hrne
    have hrmem : r ∈ seq_runs h := by
      rw [hdecomp]
      exact List.mem_append_right _ (List.mem_cons_self _ _)
    have hp' : p ∈ r := last_n_subset 5 r (hmr ▸ hp)
    unfold seq_runs at hrmem
    cases hsp : seq_pairs h with
    | nil =>
      rw [hsp] at hrmem
      simp at hrmem
    | cons x xs =>
      rw [hsp] at hrmem
      have hflt : p ∈ (split_runs_go x [x] xs).flatten :=
        List.mem_flatten.mpr ⟨r, hrmem, hp'⟩
      rw [split_runs_go_flatten] at hflt
      simpa using hflt

theorem seq_pairs_mem {h : List Nat} {p : Nat × Nat} (hp : p ∈ seq_pairs h) :
    p ∈ with_low_ace (card_dict h) :=
  (List.perm_insertionSort pair_le _).mem_iff.mp hp

theorem max_run_chain (h : List Nat) :
    List.Chain' (fun a b : Nat × Nat => b.1 = a.1 + 1) (max_run h) := by
  by_cases hrne : seq_runs h = []
  · rw [max_run_eq_nil_of_no_runs hrne]
    exact List.chain'_nil
  · obtain ⟨pre, r, post, hdecomp, hmr, _, _⟩ := max_run_spec h hrne
    have hrmem : r ∈ seq_runs h := by
      rw [hdecomp]
      exact List.mem_append_right _ (List.mem_cons_self _ _)
    have hchain : List.Chain' (fun a b : Nat × Nat => b.1 = a.1 + 1) r := by
      unfold seq_runs at hrmem
      cases hsp : seq_pairs h with
      | nil =>
        rw [hsp] at hrmem
        simp at hrmem
      | cons x xs =>
        rw [hsp] at hrmem
        exact split_runs_go_chain (List.chain'_singleton x) rfl _ r hrmem
    rw [hmr]
    exact last_n_chain hchain 5

/- ### Nonemptiness of the helper results -/

theorem py_last_ok {l : List Nat} (h : l ≠ []) :
    ∃ x, py_last l = .ok x ∧ l.getLast? = some x := by
  cases hg : l.getLast? with
  | none => exact absurd (List.getLast?_eq_none_iff.mp hg) h
  | some x =>
    refine ⟨x, ?_, rfl⟩
    unfold py_last
    rw [hg]

theorem py_get_zero_ok {l : List Nat} (h : l ≠ []) :
    ∃ x, py_get l 0 = .ok x := by
  cases l with
  | nil => exact absurd rfl h
  | cons a t => exact ⟨a, rfl⟩

theorem sort_cards_plain_length (cards : List Nat) (r : Bool) :
    (sort_cards cards none r).length = cards.length := by
  unfold sort_cards suit_filter
  cases r with
  | true =>
    rw [if_pos rfl, List.length_reverse, List.length_insertionSort,
      List.length_map]
  | false =>
    rw [if_neg Bool.false_ne_true, List.length_insertionSort, List.length_map]

theorem max_card_ok {l : List Nat} (h : l ≠ []) : ∃ x, max_card l = .ok x := by
  cases hg : (sort_cards l none false).getLast? with
  | none =>
    exfalso
    have := List.getLast?_eq_none_iff.mp hg
    have hlen := sort_cards_plain_length l false
    rw [this] at hlen
    simp only [List.length_nil] at hlen
    exact h (List.length_eq_zero.mp hlen.symm)
  | some x =>
    refine ⟨x, ?_⟩
    unfold max_card
    rw [hg]

theorem min_card_ok {l : List Nat} (h : l ≠ []) : ∃ x, min_card l = .ok x := by
  cases hg : (sort_cards l none false).head? with
  | none =>
    exfalso
    have := List.head?_eq_none_iff.mp hg
    have hlen := sort_cards_plain_length l false
    rw [this] at hlen
    simp only [List.length_nil] at hlen
    exact h (List.length_eq_zero.mp hlen.symm)
  | some x =>
    refine ⟨x, ?_⟩
    unfold min_card
    rw [hg]

/-- If some card value avoids all (converted) excluded cards, the side
cards are nonempty. -/
theorem select_side_cards_ne_nil {cards ex : List Nat} {v : Nat}
    (hv : v ∈ cards.map card_value) (hvex : ∀ e ∈ ex, card_value e ≠ v) :
    select_side_cards cards ex ≠ [] := by
  unfold select_side_cards
  intro hh
  rw [List.reverse_eq_nil_iff] at hh
  have hfil : v ∈ (cards.map card_value).filter
      (fun w => w ∉ ex.map card_value) := by
    rw [List.mem_filter]
    refine ⟨hv, ?_⟩
    simp only [decide_eq_true_eq]
    intro hmem
    obtain ⟨e, he, hev⟩ := List.mem_map.mp hmem
    exact hvex e he hev
  have hded : v ∈ ((cards.map card_value).filter
      (fun w => w ∉ ex.map card_value)).dedup := List.mem_dedup.mpr hfil
  have hne : ((cards.map card_value).filter
      (fun w => w ∉ ex.map card_value)).dedup ≠ [] := by
    intro h0
    rw [h0] at hded
    simp at hded
  exact insertionSort_ne_nil _ hne hh

/- ### group_duplicates size facts -/

theorem group_duplicates_at_most_one {h : List Nat} (h7 : h.length ≤ 7)
    {n : Nat} (hn : 4 ≤ n) : (group_duplicates h n).length ≤ 1 := by
  cases hg : group_duplicates h n with
  | nil => simp
  | cons q1 rest =>
    cases rest with
    | nil => simp
    | cons q2 t =>
      exfalso
      have hnd := group_duplicates_nodup h n
      rw [hg] at hnd
      have hne : q1 ≠ q2 := by
        intro hq
        subst hq
        simp [List.nodup_cons] at hnd
      have h1 := group_duplicates_mem (hg ▸ List.mem_cons_self q1 (q2 :: t))
      have h2 := group_duplicates_mem
        (hg ▸ List.mem_cons_of_mem q1 (List.mem_cons_self q2 t))
      have hle := count_two_le hne (h.map card_value)
      rw [h1.2, h2.2, List.length_map] at hle
      omega

/- ### assess_hand succeeds on every valid hand -/

theorem assess_hand_ok {h : List Nat} (h5 : 5 ≤ h.length) (h7 : h.length ≤ 7)
    (hnd : h.Nodup) (hlt : ∀ c ∈ h, c < 52) :
    ∃ d, assess_hand h = .ok d := by
  obtain ⟨hfms, hrne, hmrne, hlen5⟩ := find_max_sequence_ok h5 hnd hlt
  have hvlen : (h.map card_value).length = h.length := List.length_map _ _
  have hhne : h ≠ [] := by
    intro hh
    rw [hh] at h5
    simp at h5
  have hsvne : (max_run h).map Prod.fst ≠ [] := by
    intro hh
    exact hmrne (List.map_eq_nil_iff.mp hh)
  have hscne : (max_run h).map Prod.snd ≠ [] := by
    intro hh
    exact hmrne (List.map_eq_nil_iff.mp hh)
  unfold assess_hand
  rw [hfms]
  simp only []
  obtain ⟨b, hb⟩ : ∃ b, straight_flush_test ((max_run h).map Prod.fst)
      ((max_run h).map Prod.snd) = .ok b := by
    unfold straight_flush_test
    by_cases hl : ((max_run h).map Prod.fst).length = 5
    · rw [if_pos hl]
      obtain ⟨p, _, _, _, hfs⟩ := flush_suite_spec _ hscne
      rw [hfs]
      exact ⟨_, rfl⟩
    · rw [if_neg hl]
      exact ⟨false, rfl⟩
  cases b with
  | true =>
    rw [hb]
    obtain ⟨x, hx, _⟩ := py_last_ok hsvne
    rw [hx]
    exact ⟨_, rfl⟩
  | false =>
    rw [hb]
    simp only []
    by_cases h4 : group_duplicates h 4 ≠ []
    · rw [if_pos h4]
      cases hg4 : group_duplicates h 4 with
      | nil => exact absurd hg4 h4
      | cons q rest =>
        have hqc := group_duplicates_mem (hg4 ▸ List.mem_cons_self q rest)
        have hlen1 := group_duplicates_at_most_one h7 (le_refl 4)
        rw [hg4] at hlen1
        have hrest : rest = [] := by
          cases rest with
          | nil => rfl
          | cons a t => simp at hlen1
        subst hrest
        obtain ⟨v, hv, hvq⟩ : ∃ v ∈ h.map card_value, v ≠ q := by
          apply exists_ne_of_count_lt
          rw [hqc.2, hvlen]
          omega
        have hside : select_side_cards h (q :: []) ≠ [] := by
          apply select_side_cards_ne_nil hv
          intro e he
          rw [List.mem_singleton] at he
          subst he
          rw [card_value_of_value hqc.1]
          exact fun hh => hvq hh.symm
        obtain ⟨k, hk⟩ := py_get_zero_ok hside
        rw [show py_get (q :: ([] : List Nat)) 0 = .ok q from rfl]
        simp only []
        rw [hk]
        exact ⟨_, rfl⟩
    · rw [if_neg h4]
      by_cases h32 : group_duplicates h 3 ≠ [] ∧ group_duplicates h 2 ≠ []
      · rw [if_pos h32]
        cases hg3 : group_duplicates h 3 with
        | nil => exact absurd hg3 h32.1
        | cons t3 r3 =>
          cases hg2 : group_duplicates h 2 with
          | nil => exact absurd hg2 h32.2
          | cons p2 r2 => exact ⟨_, rfl⟩
      · rw [if_neg h32]
        obtain ⟨p, _, _, _, hfs⟩ := flush_suite_spec h hhne
        rw [hfs]
        by_cases hp5 : p.2 = 5
        · rw [if_pos hp5]
          exact ⟨_, rfl⟩
        · rw [if_neg hp5]
          simp only []
          by_cases hL : ((max_run h).map Prod.fst).length = 5
          · rw [if_pos hL]
            obtain ⟨x, hx, _⟩ := py_last_ok hsvne
            rw [hx]
            exact ⟨_, rfl⟩
          · rw [if_neg hL]
            by_cases h3 : group_duplicates h 3 ≠ []
            · rw [if_pos h3]
              cases hg3 : group_duplicates h 3 with
              | nil => exact absurd hg3 h3
              | cons t3 r3 => exact ⟨_, rfl⟩
            · rw [if_neg h3]
              by_cases hl2 : (group_duplicates h 2).length = 2
              · rw [if_pos hl2]
                cases hg2 : group_duplicates h 2 with
                | nil => rw [hg2] at hl2; simp at hl2
                | cons a r2 =>
                  cases r2 with
                  | nil => rw [hg2] at hl2; simp at hl2
                  | cons b t =>
                    cases t with
                    | cons c tt => rw [hg2] at hl2; simp at hl2
                    | nil =>
                      have hnd2 := group_duplicates_nodup h 2
                      rw [hg2] at hnd2
                      have hab : a ≠ b := by
                        intro hh
                        subst hh
                        simp [List.nodup_cons] at hnd2
                      have hac := group_duplicates_mem
                        (hg2 ▸ List.mem_cons_self a (b :: []))
                      have hbc := group_duplicates_mem
                        (hg2 ▸ List.mem_cons_of_mem a (List.mem_cons_self b []))
                      obtain ⟨v, hv, hva, hvb⟩ :
                          ∃ v ∈ h.map card_value, v ≠ a ∧ v ≠ b := by
                        apply exists_ne_two hab
                        rw [hac.2, hbc.2, hvlen]
                        omega
                      have hside : select_side_cards h (a :: b :: []) ≠ [] := by
                        apply select_side_cards_ne_nil hv
                        intro e he
                        rcases List.mem_cons.mp he with rfl | he'
                        · rw [card_value_of_value hac.1]
                          exact fun hh => hva hh.symm
                        · rw [List.mem_singleton] at he'
                          subst he'
                          rw [card_value_of_value hbc.1]
                          exact fun hh => hvb hh.symm
                      obtain ⟨hi, hmax⟩ := max_card_ok
                        (by simp : (a :: b :: []) ≠ ([] : List Nat))
                      obtain ⟨lo, hmin⟩ := min_card_ok
                        (by simp : (a :: b :: []) ≠ ([] : List Nat))
                      obtain ⟨k, hk⟩ := py_get_zero_ok hside
                      rw [hmax, hmin, hk]
                      exact ⟨_, rfl⟩
              · rw [if_neg hl2]
                by_cases hl1 : (group_duplicates h 2).length = 1
                · rw [if_pos hl1]
                  cases hg2 : group_duplicates h 2 with
                  | nil => rw [hg2] at hl1; simp at hl1
                  | cons a r2 => exact ⟨_, rfl⟩
                · rw [if_neg hl1]
                  exact ⟨_, rfl⟩

/- ### Claim theorems: concrete counterexamples and evaluations -/

/-- C1 (counter-evidence, the code contradicts the invariant and its own
docstring): the 7-card sets A♠A♥A♦K♠K♥K♦Q♠ (= [0,13,26,12,25,38,11]) and
A♠A♥A♦K♠K♥3♣2♦ (= [0,13,26,12,25,41,27]) are poker-equivalent — the best
5-card hand of each, maximising `assess_hand` over all C(7,5) five-card
subsets, is the full house AAAKK with descriptor (FullHouse, 13, 12) —
yet `assess_hand` maps the first to (Three, 13, 11) and the second to
(FullHouse, 13, 12): not bit-identical. -/
theorem claim_C1_poker_equivalent_hands_get_different_descriptors :
    valid_hand [0, 13, 26, 12, 25, 38, 11] ∧
    valid_hand [0, 13, 26, 12, 25, 41, 27] ∧
    best_five [0, 13, 26, 12, 25, 38, 11] = [Hand.FULL_HOUSE, 13, 12] ∧
    best_five [0, 13, 26, 12, 25, 41, 27] = [Hand.FULL_HOUSE, 13, 12] ∧
    assess_hand [0, 13, 26, 12, 25, 38, 11] = .ok [Hand.THREE, 13, 11] ∧
    assess_hand [0, 13, 26, 12, 25, 41, 27] = .ok [Hand.FULL_HOUSE, 13, 12] ∧
    ([Hand.THREE, 13, 11] : List Nat) ≠ [Hand.FULL_HOUSE, 13, 12] := by
  refine ⟨?_, ?_, rfl, rfl, rfl, rfl, by decide⟩ <;>
    (unfold valid_hand; refine ⟨by decide, by decide, by decide, by decide⟩)

/-- C2 (counterexample): the 7-card set A♠A♥A♦K♠K♥Q♠Q♥ fed in two
different orders yields two different descriptors — with kings seen
first the full house reads (FullHouse, 13, 12), with queens seen first
it reads (FullHouse, 13, 11), because `Counter.most_common(2)` breaks
the count tie between the two pairs by first encounter. -/
theorem claim_C2_counterexample_order_changes_descriptor :
    List.Perm [0, 13, 26, 12, 25, 11, 24] [0, 13, 26, 11, 24, 12, 25] ∧
    valid_hand [0, 13, 26, 12, 25, 11, 24] ∧
    assess_hand [0, 13, 26, 12, 25, 11, 24] = .ok [Hand.FULL_HOUSE, 13, 12] ∧
    assess_hand [0, 13, 26, 11, 24, 12, 25] = .ok [Hand.FULL_HOUSE, 13, 11] ∧
    ([Hand.FULL_HOUSE, 13, 12] : List Nat) ≠ [Hand.FULL_HOUSE, 13, 11] := by
  refine ⟨by decide, ?_, rfl, rfl, by decide⟩
  unfold valid_hand
  exact ⟨by decide, by decide, by decide, by decide⟩

/-- C3: on every well-formed input — 5 to 7 pairwise-distinct card ids
in [0, 51] — `assess_hand` reaches no error branch and returns exactly
one Rank Descriptor: every partial access (the two-sequence unpacking of
`find_max_sequence`, `side_cards[0]`, `most_common(1)[0]`, the `[-1]`
indexings) is in bounds. -/
theorem claim_C3_valid_input_always_yields_descriptor :
    ∀ h : List Nat, valid_hand h → ∃ d, assess_hand h = .ok d := by
  intro h hv
  obtain ⟨h5, h7, hnd, hlt⟩ := hv
  exact assess_hand_ok h5 h7 hnd hlt

theorem claim_C3_witness :
    valid_hand [0, 1, 2, 3, 4] ∧ ∃ d, assess_hand [0, 1, 2, 3, 4] = .ok d :=
  ⟨by unfold valid_hand; exact ⟨by decide, by decide, by decide, by decide⟩,
    claim_C3_valid_input_always_yields_descriptor [0, 1, 2, 3, 4]
      (by unfold valid_hand; exact ⟨by decide, by decide, by decide, by decide⟩)⟩

/-- C4 (the code has no input validation, contradicting the spec's
fail-fast contract): malformed inputs silently produce descriptors —
4 cards give a high card, 8 cards give a straight flush, a duplicated id
is miscounted as a pair of suited cards and yields a flush, and the
out-of-range id 52 acts as an ace of a fifth suit completing a wheel
straight.  None of these evaluations fails. -/
theorem claim_C4_malformed_input_not_rejected :
    assess_hand [1, 2, 3, 4] = .ok [Hand.HIGH_CARD, 4, 3, 2, 1] ∧
    assess_hand [0, 1, 2, 3, 4, 5, 6, 7] = .ok [Hand.STRAIGHT_FLUSH, 7] ∧
    assess_hand [1, 1, 2, 3, 4] = .ok [Hand.FLUSH, 4, 3, 2, 1, 1] ∧
    assess_hand [52, 1, 2, 3, 4] = .ok [Hand.STRAIGHT, 4] :=
  ⟨rfl, rfl, rfl, rfl⟩

/-- C9 (counterexample): on [1,2,3,5,6,7,9] the distinct values split
into the runs [1,2,3], [5,6,7], [9]; the maximal length 3 is attained by
both [1,2,3] (first encountered) and [5,6,7], and `find_max_sequence`
returns [5,6,7] — the last-encountered maximal run, not the
first-encountered one. -/
theorem claim_C9_counterexample_first_run_not_selected :
    valid_hand [1, 2, 3, 5, 6, 7, 9] ∧
    seq_runs [1, 2, 3, 5, 6, 7, 9] =
      [[(1, 1), (2, 2), (3, 3)], [(5, 5), (6, 6), (7, 7)], [(9, 9)]] ∧
    find_max_sequence [1, 2, 3, 5, 6, 7, 9] = .ok ([5, 6, 7], [5, 6, 7]) ∧
    ([5, 6, 7] : List Nat) ≠ [1, 2, 3] := by
  refine ⟨?_, rfl, rfl, by decide⟩
  unfold valid_hand
  exact ⟨by decide, by decide, by decide, by decide⟩

/-- C10: `card_value` is idempotent on the whole deck, and consequently
`select_side_cards` computes the same side cards whether its exclusion
argument holds raw card ids or already-converted rank values — which is
why `assess_hand` may pass it the rank-value lists `duplicates[n]`. -/
theorem claim_C10_card_value_idempotent_select_side_cards_agree :
    (∀ c : Nat, c < 52 → card_value (card_value c) = card_value c) ∧
    (∀ cards excl : List Nat,
      select_side_cards cards (excl.map card_value) =
        select_side_cards cards excl) := by
  constructor
  · intro c _
    exact card_value_idem c
  · intro cards excl
    unfold select_side_cards
    have hmm : (excl.map card_value).map card_value = excl.map card_value := by
      rw [List.map_map]
      apply List.map_congr_left
      intro e _
      exact card_value_idem e
    rw [hmm]

theorem claim_C10_witness :
    card_value (card_value 0) = card_value 0 ∧
    select_side_cards [0, 13, 11] ([12].map card_value) =
      select_side_cards [0, 13, 11] [12] :=
  ⟨claim_C10_card_value_idempotent_select_side_cards_agree.1 0 (by decide),
    claim_C10_card_value_idempotent_select_side_cards_agree.2 [0, 13, 11] [12]⟩

/-- C8: for every 5-7 card input, `flush_suite` succeeds and returns
`some s` exactly when suit `s` occurs exactly 5 times (with at most 7
cards that suit is also the most frequent one, and unique), and `none`
otherwise; in particular any suit occurring 6 or more times forces
`none`. -/
theorem claim_C8_flush_suite_returns_suit_iff_count_exactly_five :
    ∀ h : List Nat, 5 ≤ h.length → h.length ≤ 7 →
      ∃ r, flush_suite h = .ok r ∧
        (∀ s, r = some s ↔ (h.map (fun c => c / 13)).count s = 5) ∧
        (∀ s, 6 ≤ (h.map (fun c => c / 13)).count s → r = none) := by
  intro h h5 h7
  have hne : h ≠ [] := by
    intro hh
    rw [hh] at h5
    simp at h5
  obtain ⟨p, hps, hpc, hpmax, hfs⟩ := flush_suite_spec h hne
  have hslen : (h.map (fun c => c / 13)).length = h.length := List.length_map _ _
  refine ⟨if p.2 = 5 then some p.1 else none, hfs, ?_, ?_⟩
  · intro s
    by_cases hp5 : p.2 = 5
    · rw [if_pos hp5]
      constructor
      · intro h'
        have hps' : p.1 = s := Option.some.inj h'
        rw [← hps', ← hpc, hp5]
      · intro hcs
        have hs : s ∈ h.map (fun c => c / 13) :=
          List.count_pos_iff.mp (by omega)
        have h1 : 5 ≤ p.2 := hcs ▸ hpmax s hs
        by_cases hps' : p.1 = s
        · rw [hps']
        · exfalso
          have h2 := count_two_le hps' (h.map (fun c => c / 13))
          rw [← hpc, hcs, hslen] at h2
          omega
    · rw [if_neg hp5]
      constructor
      · intro h'
        exact absurd h' (by simp)
      · intro hcs
        exfalso
        have hs : s ∈ h.map (fun c => c / 13) :=
          List.count_pos_iff.mp (by omega)
        have h1 : 5 ≤ p.2 := hcs ▸ hpmax s hs
        by_cases hps' : p.1 = s
        · rw [hps'] at hpc
          omega
        · have h2 := count_two_le hps' (h.map (fun c => c / 13))
          rw [← hpc, hcs, hslen] at h2
          omega
  · intro s h6
    by_cases hp5 : p.2 = 5
    · exfalso
      have hs : s ∈ h.map (fun c => c / 13) :=
        List.count_pos_iff.mp (by omega)
      have h1 := hpmax s hs
      by_cases hps' : p.1 = s
      · rw [hps'] at hpc
        omega
      · have h2 := count_two_le hps' (h.map (fun c => c / 13))
        rw [← hpc, hslen] at h2
        omega
    · rw [if_neg hp5]

theorem claim_C8_witness :
    ∃ r, flush_suite [0, 1, 2, 3, 4, 15] = .ok r ∧
      (∀ s, r = some s ↔
        (([0, 1, 2, 3, 4, 15] : List Nat).map (fun c => c / 13)).count s = 5) ∧
      (∀ s, 6 ≤ (([0, 1, 2, 3, 4, 15] : List Nat).map (fun c => c / 13)).count s →
        r = none) :=
  claim_C8_flush_suite_returns_suit_iff_count_exactly_five
    [0, 1, 2, 3, 4, 15] (by decide) (by decide)

/- ### Supporting lemmas for hands with few distinct values -/

theorem with_low_ace_length_le_succ (d : List (Nat × Nat)) :
    (with_low_ace d).length ≤ d.length + 1 := by
  unfold with_low_ace
  cases dict_get d 13 with
  | none =>
    show d.length ≤ d.length + 1
    omega
  | some i =>
    show (dict_insert d 0 i).length ≤ d.length + 1
    unfold dict_insert
    by_cases h : 0 ∈ d.map Prod.fst
    · rw [if_pos h, List.length_map]
      omega
    · rw [if_neg h, List.length_append]
      simp

theorem card_value_mod_eq {x y : Nat} (hxy : card_value x = card_value y) :
    x % 13 = y % 13 := by
  unfold card_value at hxy
  split at hxy <;> split at hxy <;> omega

theorem seq_pairs_length (h : List Nat) :
    (seq_pairs h).length = (with_low_ace (card_dict h)).length :=
  List.length_insertionSort _ _

theorem run_length_le {h : List Nat} {r : List (Nat × Nat)}
    (hr : r ∈ seq_runs h) : r.length ≤ (seq_pairs h).length := by
  unfold seq_runs at hr
  cases hsp : seq_pairs h with
  | nil =>
    rw [hsp] at hr
    simp at hr
  | cons x xs =>
    rw [hsp] at hr
    have hsub := List.sublist_flatten_of_mem hr
    have := hsub.length_le
    rw [split_runs_go_flatten] at this
    simpa using this

/-- In a hand whose card values all lie in a three-element set, every
suit occurs at most 3 times (distinct ids of one suit have distinct
values). -/
theorem suit_count_le_three {h : List Nat} {a b c : Nat} (hnd : h.Nodup)
    (hmem3 : ∀ v ∈ h.map card_value, v = a ∨ v = b ∨ v = c) (s : Nat) :
    (h.map (fun x => x / 13)).count s ≤ 3 := by
  rw [count_map_eq_length_filter]
  have hfnd : (h.filter (fun x => x / 13 == s)).Nodup := hnd.filter _
  have hmapnd : ((h.filter (fun x => x / 13 == s)).map card_value).Nodup := by
    apply hfnd.map_on
    intro x hx y hy hxy
    have hxs : x / 13 = s := by simpa using (List.mem_filter.mp hx).2
    have hys : y / 13 = s := by simpa using (List.mem_filter.mp hy).2
    have := card_value_mod_eq hxy
    omega
  have hsub : ((h.filter (fun x => x / 13 == s)).map card_value).toFinset ⊆
      ({a, b, c} : Finset Nat) := by
    intro v hv
    rw [List.mem_toFinset] at hv
    obtain ⟨x, hx, rfl⟩ := List.mem_map.mp hv
    have hxh : x ∈ h := (List.mem_filter.mp hx).1
    have := hmem3 (card_value x) (List.mem_map_of_mem card_value hxh)
    simp only [Finset.mem_insert, Finset.mem_singleton]
    exact this
  have hcard := Finset.card_le_card hsub
  rw [List.toFinset_card_of_nodup hmapnd, List.length_map] at hcard
  have hle : ({a, b, c} : Finset Nat).card ≤ 3 := by
    have c1 := Finset.card_insert_le a ({b, c} : Finset Nat)
    have c2 := Finset.card_insert_le b ({c} : Finset Nat)
    have c3 : ({c} : Finset Nat).card = 1 := Finset.card_singleton _
    omega
  omega

theorem list_length_three {α : Type} {l : List α} (hl : l.length = 3) :
    ∃ x y z, l = [x, y, z] := by
  cases l with
  | nil => simp at hl
  | cons x l1 =>
    cases l1 with
    | nil => simp at hl
    | cons y l2 =>
      cases l2 with
      | nil => simp at hl
      | cons z l3 =>
        cases l3 with
        | nil => exact ⟨x, y, z, rfl⟩
        | cons w l4 => simp at hl

/-- The duplicate-grouping structure of a 7-card hand with two trips and
one odd card: `groups[3]` holds both trip values (in one of the two
orders), `groups[2]` and `groups[4]` are empty. -/
theorem two_trips_groups {h : List Nat} {a b c : Nat}
    (h7 : h.length = 7) (hab : a ≠ b) (hac : a ≠ c) (hbc : b ≠ c)
    (ha : (h.map card_value).count a = 3)
    (hb : (h.map card_value).count b = 3)
    (hc : (h.map card_value).count c = 1) :
    (group_duplicates h 3 = [a, b] ∨ group_duplicates h 3 = [b, a]) ∧
    group_duplicates h 2 = [] ∧ group_duplicates h 4 = [] := by
  have hVlen : (h.map card_value).length = 7 := by rw [List.length_map, h7]
  have hmem3 : ∀ v ∈ h.map card_value, v = a ∨ v = b ∨ v = c :=
    mem_three_of_count hab hac hbc (by rw [ha, hb, hc, hVlen])
  have haV : a ∈ h.map card_value := List.count_pos_iff.mp (by omega)
  have hbV : b ∈ h.map card_value := List.count_pos_iff.mp (by omega)
  have hcV : c ∈ h.map card_value := List.count_pos_iff.mp (by omega)
  have hcnt_mem : ∀ p ∈ counter_of (h.map card_value),
      p = (a, 3) ∨ p = (b, 3) ∨ p = (c, 1) := by
    intro p hp
    have hk : p.1 ∈ h.map card_value :=
      counter_mem_keys.mp (List.mem_map_of_mem Prod.fst hp)
    have hcount := counter_count hp
    rcases hmem3 p.1 hk with h1 | h1 | h1
    · exact Or.inl (Prod.ext h1 (by rw [hcount, h1, ha]))
    · exact Or.inr (Or.inl (Prod.ext h1 (by rw [hcount, h1, hb])))
    · exact Or.inr (Or.inr (Prod.ext h1 (by rw [hcount, h1, hc])))
  have hexp_nodup : ([(a, 3), (b, 3), (c, 1)] : List (Nat × Nat)).Nodup := by
    refine List.nodup_cons.mpr ⟨?_, List.nodup_cons.mpr ⟨?_, List.nodup_singleton _⟩⟩
    · intro hmem
      rcases List.mem_cons.mp hmem with hh | hh
      · exact hab (congrArg Prod.fst hh)
      · rw [List.mem_singleton] at hh
        exact hac (congrArg Prod.fst hh)
    · intro hmem
      rw [List.mem_singleton] at hmem
      exact hbc (congrArg Prod.fst hmem)
  have hcnt_nodup : (counter_of (h.map card_value)).Nodup :=
    (counter_keys_nodup _).of_map
  have hperm : List.Perm (counter_of (h.map card_value))
      [(a, 3), (b, 3), (c, 1)] := by
    rw [List.perm_ext_iff_of_nodup hcnt_nodup hexp_nodup]
    intro p
    constructor
    · intro hp
      rcases hcnt_mem p hp with rfl | rfl | rfl <;> simp
    · intro hp
      simp only [List.mem_cons, List.mem_singleton, List.not_mem_nil,
        or_false] at hp
      rcases hp with rfl | rfl | rfl
      · exact counter_mem_iff.mpr ⟨haV, ha.symm⟩
      · exact counter_mem_iff.mpr ⟨hbV, hb.symm⟩
      · exact counter_mem_iff.mpr ⟨hcV, hc.symm⟩
  have hsp := List.perm_insertionSort count_ge (counter_of (h.map card_value))
  have hsorted := List.sorted_insertionSort count_ge (counter_of (h.map card_value))
  have hslen : (List.insertionSort count_ge (counter_of (h.map card_value))).length
      = 3 := by
    rw [hsp.length_eq, hperm.length_eq]
    rfl
  obtain ⟨e1, e2, e3, hs⟩ := list_length_three hslen
  rw [hs] at hsp hsorted
  have hperm' : List.Perm [e1, e2, e3] [(a, 3), (b, 3), (c, 1)] :=
    hsp.trans hperm
  have hmem : ∀ i ∈ [e1, e2, e3], i = (a, 3) ∨ i = (b, 3) ∨ i = (c, 1) := by
    intro i hi
    have := hperm'.mem_iff.mp hi
    simpa using this
  have hnd' : ([e1, e2, e3] : List (Nat × Nat)).Nodup :=
    hexp_nodup.perm hperm'.symm
  have hne12 : e1 ≠ e2 := by
    intro hh
    rw [hh] at hnd'
    simp [List.nodup_cons] at hnd'
  have h12 : e2.2 ≤ e1.2 :=
    (List.pairwise_cons.mp hsorted).1 e2 (List.mem_cons_self _ _)
  have h23 : e3.2 ≤ e2.2 :=
    (List.pairwise_cons.mp (List.pairwise_cons.mp hsorted).2).1 e3
      (List.mem_cons_self _ _)
  have he1 : e1 = (a, 3) ∨ e1 = (b, 3) := by
    rcases hmem e1 (by simp) with h1 | h1 | h1
    · exact Or.inl h1
    · exact Or.inr h1
    · exfalso
      rcases hmem e2 (by simp) with h2 | h2 | h2
      · rw [h1, h2] at h12
        simp at h12
      · rw [h1, h2] at h12
        simp at h12
      · exact hne12 (h1.trans h2.symm)
  have he2 : e2 = (a, 3) ∨ e2 = (b, 3) := by
    rcases hmem e2 (by simp) with h2 | h2 | h2
    · exact Or.inl h2
    · exact Or.inr h2
    · exfalso
      have hne23 : e2 ≠ e3 := by
        intro hh
        rw [hh] at hnd'
        simp [List.nodup_cons] at hnd'
      rcases hmem e3 (by simp) with h3 | h3 | h3
      · rw [h2, h3] at h23
        simp at h23
      · rw [h2, h3] at h23
        simp at h23
      · exact hne23 (h2.trans h3.symm)
  have he1_2 : e1.2 = 3 := by rcases he1 with rfl | rfl <;> rfl
  have he2_2 : e2.2 = 3 := by rcases he2 with rfl | rfl <;> rfl
  have hmc : most_common 2 (counter_of (h.map card_value)) = [e1, e2] := by
    unfold most_common
    rw [hs]
    rfl
  have hfilter3 : ([e1, e2].filter (fun p => p.2 == 3)) = [e1, e2] := by
    rw [List.filter_cons, List.filter_cons]
    simp [he1_2, he2_2]
  have hgd3 : group_duplicates h 3 = [e1.1, e2.1] := by
    unfold group_duplicates
    rw [hmc, hfilter3]
    rfl
  have hgd2 : group_duplicates h 2 = [] := by
    unfold group_duplicates
    rw [hmc]
    rw [List.filter_cons, List.filter_cons]
    simp [he1_2, he2_2]
  have hgd4 : group_duplicates h 4 = [] := by
    unfold group_duplicates
    rw [hmc]
    rw [List.filter_cons, List.filter_cons]
    simp [he1_2, he2_2]
  refine ⟨?_, hgd2, hgd4⟩
  rcases he1 with rfl | rfl <;> rcases he2 with rfl | rfl
  · exact absurd rfl hne12
  · exact Or.inl (by rw [hgd3])
  · exact Or.inr (by rw [hgd3])
  · exact absurd rfl hne12

theorem card_dict_length_eq_three {h : List Nat} {a b c : Nat}
    (hab : a ≠ b) (hac : a ≠ c) (hbc : b ≠ c)
    (hmem3 : ∀ v ∈ h.map card_value, v = a ∨ v = b ∨ v = c)
    (haV : a ∈ h.map card_value) (hbV : b ∈ h.map card_value)
    (hcV : c ∈ h.map card_value) : (card_dict h).length = 3 := by
  have habc_nodup : ([a, b, c] : List Nat).Nodup := by
    refine List.nodup_cons.mpr ⟨?_, List.nodup_cons.mpr ⟨?_, List.nodup_singleton _⟩⟩
    · intro hmem
      rcases List.mem_cons.mp hmem with hh | hh
      · exact hab hh
      · rw [List.mem_singleton] at hh
        exact hac hh
    · intro hmem
      rw [List.mem_singleton] at hmem
      exact hbc hmem
  have hperm : List.Perm ((card_dict h).map Prod.fst) [a, b, c] := by
    rw [List.perm_ext_iff_of_nodup (dict_keys_nodup h) habc_nodup]
    intro v
    rw [dict_mem_keys]
    constructor
    · intro hv
      have := hmem3 v hv
      simpa using this
    · intro hv
      simp only [List.mem_cons, List.mem_singleton, List.not_mem_nil,
        or_false] at hv
      rcases hv with rfl | rfl | rfl
      · exact haV
      · exact hbV
      · exact hcV
  have hlen := hperm.length_eq
  rw [List.length_map] at hlen
  rw [hlen]
  rfl

/-- C7: a 7-card hand made of three cards of rank value `a`, three of
rank value `b` and one of rank value `c` (pairwise distinct values —
which structurally excludes any flush or straight) is grouped with
`groups[3]` holding the two trip values and `groups[2]` empty, and
`assess_hand` classifies it as `Three` (three of a kind), not
`FullHouse`. -/
theorem claim_C7_double_trips_classified_as_three :
    ∀ (h : List Nat) (a b c : Nat),
      h.length = 7 → h.Nodup → (∀ x ∈ h, x < 52) →
      a ≠ b → a ≠ c → b ≠ c →
      (h.map card_value).count a = 3 →
      (h.map card_value).count b = 3 →
      (h.map card_value).count c = 1 →
      (group_duplicates h 3 = [a, b] ∨ group_duplicates h 3 = [b, a]) ∧
      group_duplicates h 2 = [] ∧
      ∃ d, assess_hand h = .ok d ∧ d.head? = some Hand.THREE := by
  intro h a b c h7 hnd hlt hab hac hbc ha hb hc
  obtain ⟨hgd3, hgd2, hgd4⟩ := two_trips_groups h7 hab hac hbc ha hb hc
  refine ⟨hgd3, hgd2, ?_⟩
  have h5 : 5 ≤ h.length := by omega
  have hne : h ≠ [] := by
    intro hh
    rw [hh] at h7
    simp at h7
  have hVlen : (h.map card_value).length = 7 := by rw [List.length_map, h7]
  have hmem3 : ∀ v ∈ h.map card_value, v = a ∨ v = b ∨ v = c :=
    mem_three_of_count hab hac hbc (by rw [ha, hb, hc, hVlen])
  have haV : a ∈ h.map card_value := List.count_pos_iff.mp (by omega)
  have hbV : b ∈ h.map card_value := List.count_pos_iff.mp (by omega)
  have hcV : c ∈ h.map card_value := List.count_pos_iff.mp (by omega)
  obtain ⟨hfms, hrne, hmrne, _⟩ := find_max_sequence_ok h5 hnd hlt
  have hdict : (card_dict h).length = 3 :=
    card_dict_length_eq_three hab hac hbc hmem3 haV hbV hcV
  have hsvlen : ((max_run h).map Prod.fst).length ≤ 4 := by
    rw [List.length_map]
    obtain ⟨pre, r, post, hdecomp, hmr, _, _⟩ := max_run_spec h hrne
    have hrmem : r ∈ seq_runs h := by
      rw [hdecomp]
      exact List.mem_append_right _ (List.mem_cons_self _ _)
    have h1 := run_length_le hrmem
    have h2 := seq_pairs_length h
    have h3 := with_low_ace_length_le_succ (card_dict h)
    rw [hmr, last_n_length]
    omega
  have hsft : straight_flush_test ((max_run h).map Prod.fst)
      ((max_run h).map Prod.snd) = .ok false := by
    unfold straight_flush_test
    rw [if_neg (by omega)]
  have hfl : flush_suite h = .ok none := by
    obtain ⟨p, hps, hpc, hpmax, hfs⟩ := flush_suite_spec h hne
    have hle := suit_count_le_three hnd hmem3 p.1
    rw [hfs, if_neg (by omega)]
  unfold assess_hand
  rw [hfms]
  simp only []
  rw [hsft]
  simp only []
  rw [if_neg (not_not_intro hgd4)]
  rw [if_neg (by intro hcon; exact hcon.2 hgd2)]
  rw [hfl]
  simp only []
  rw [if_neg (by omega : ¬ ((max_run h).map Prod.fst).length = 5)]
  rcases hgd3 with hg | hg
  · rw [if_pos (by rw [hg]; simp), hg]
    exact ⟨_, rfl, rfl⟩
  · rw [if_pos (by rw [hg]; simp), hg]
    exact ⟨_, rfl, rfl⟩

theorem claim_C7_witness :
    (group_duplicates [0, 13, 26, 12, 25, 38, 11] 3 = [13, 12] ∨
      group_duplicates [0, 13, 26, 12, 25, 38, 11] 3 = [12, 13]) ∧
    group_duplicates [0, 13, 26, 12, 25, 38, 11] 2 = [] ∧
    ∃ d, assess_hand [0, 13, 26, 12, 25, 38, 11] = .ok d ∧
      d.head? = some Hand.THREE :=
  claim_C7_double_trips_classified_as_three [0, 13, 26, 12, 25, 38, 11] 13 12 11
    (by decide) (by decide) (by decide) (by decide) (by decide) (by decide)
    (by decide) (by decide) (by decide)

/- ### Dissecting a successful assess_hand run -/

theorem list_length_five {α : Type} {l : List α} (hl : l.length = 5) :
    ∃ x0 x1 x2 x3 x4, l = [x0, x1, x2, x3, x4] := by
  cases l with
  | nil => simp at hl
  | cons x0 l1 =>
    cases l1 with
    | nil => simp at hl
    | cons x1 l2 =>
      cases l2 with
      | nil => simp at hl
      | cons x2 l3 =>
        cases l3 with
        | nil => simp at hl
        | cons x3 l4 =>
          cases l4 with
          | nil => simp at hl
          | cons x4 l5 =>
            cases l5 with
            | nil => exact ⟨x0, x1, x2, x3, x4, rfl⟩
            | cons x5 l6 => simp at hl

theorem find_max_sequence_ok_shape {h : List Nat} {sv sc : List Nat}
    (hfm : find_max_sequence h = .ok (sv, sc)) :
    sv = (max_run h).map Prod.fst ∧ sc = (max_run h).map Prod.snd := by
  unfold find_max_sequence at hfm
  split at hfm
  · simp at hfm
  · split at hfm
    · simp at hfm
    · split at hfm
      · simp at hfm
      · simp only [Except.ok.injEq, Prod.mk.injEq] at hfm
        exact ⟨hfm.1.symm, hfm.2.symm⟩

/-- Every descriptor produced by `assess_hand` either comes from a
straight branch — it is `(StraightFlush, v)` or `(Straight, v)` with `v`
the last value of the 5-long selected run — or starts with a category
code in 1..8 other than Straight. -/
theorem assess_hand_shape {h d : List Nat} (hok : assess_hand h = .ok d) :
    (∃ v, (d = [Hand.STRAIGHT_FLUSH, v] ∨ d = [Hand.STRAIGHT, v]) ∧
      ((max_run h).map Prod.fst).length = 5 ∧
      ((max_run h).map Prod.fst).getLast? = some v) ∨
    (∃ k rest, d = k :: rest ∧ 1 ≤ k ∧ k ≤ 8 ∧ k ≠ 5) := by
  unfold assess_hand at hok
  split at hok
  · simp at hok
  · next seq_values seq_cards heq =>
    obtain ⟨hsv, hsc⟩ := find_max_sequence_ok_shape heq
    subst hsv
    subst hsc
    split at hok
    · simp at hok
    · -- straight flush branch
      next hsft =>
      have hlen5 : ((max_run h).map Prod.fst).length = 5 := by
        unfold straight_flush_test at hsft
        by_cases hl : ((max_run h).map Prod.fst).length = 5
        · exact hl
        · rw [if_neg hl] at hsft
          simp at hsft
      cases hgl : ((max_run h).map Prod.fst).getLast? with
      | none =>
        unfold py_last at hok
        rw [hgl] at hok
        simp [Except.map] at hok
      | some v =>
        unfold py_last at hok
        rw [hgl] at hok
        simp only [Except.map] at hok
        left
        refine ⟨v, Or.inl ?_, hlen5, rfl⟩
        simp only [Except.ok.injEq] at hok
        exact hok.symm
    · -- the rest of the cascade
      split at hok
      · -- FOUR
        split at hok
        · simp at hok
        · next q hq =>
          cases hpg : py_get (select_side_cards h (group_duplicates h 4)) 0 with
          | error e =>
            rw [hpg] at hok
            simp [Except.map] at hok
          | ok k =>
            rw [hpg] at hok
            simp only [Except.map, Except.ok.injEq] at hok
            right
            exact ⟨Hand.FOUR, [q, k], hok.symm, by decide, by decide, by decide⟩
      · split at hok
        · -- FULL_HOUSE
          split at hok
          · simp at hok
          · next t ht =>
            cases hpg : py_get (group_duplicates h 2) 0 with
            | error e =>
              rw [hpg] at hok
              simp [Except.map] at hok
            | ok p =>
              rw [hpg] at hok
              simp only [Except.map, Except.ok.injEq] at hok
              right
              exact ⟨Hand.FULL_HOUSE, [t, p], hok.symm, by decide, by decide,
                by decide⟩
        · split at hok
          · simp at hok
          · -- FLUSH
            next s hs =>
            simp only [Except.ok.injEq] at hok
            right
            exact ⟨Hand.FLUSH, _, hok.symm, by decide, by decide, by decide⟩
          · -- after flush: straight, three, two pair, pair, high card
            split at hok
            · -- STRAIGHT
              next hL =>
              cases hgl : ((max_run h).map Prod.fst).getLast? with
              | none =>
                unfold py_last at hok
                rw [hgl] at hok
                simp [Except.map] at hok
              | some v =>
                unfold py_last at hok
                rw [hgl] at hok
                simp only [Except.map, Except.ok.injEq] at hok
                left
                exact ⟨v, Or.inr hok.symm, hL, rfl⟩
            · split at hok
              · -- THREE
                cases hpg : py_get (group_duplicates h 3) 0 with
                | error e =>
                  rw [hpg] at hok
                  simp [Except.map] at hok
                | ok t =>
                  rw [hpg] at hok
                  simp only [Except.map, Except.ok.injEq] at hok
                  right
                  exact ⟨Hand.THREE, _, hok.symm, by decide, by decide, by decide⟩
              · split at hok
                · -- TWO_PAIR
                  split at hok
                  · next hi lo k hhi hlo hk =>
                    simp only [Except.ok.injEq] at hok
                    right
                    exact ⟨Hand.TWO_PAIR, [hi, lo, k], hok.symm, by decide,
                      by decide, by decide⟩
                  · simp at hok
                  · simp at hok
                  · simp at hok
                · split at hok
                  · -- PAIR
                    cases hpg : py_get (group_duplicates h 2) 0 with
                    | error e =>
                      rw [hpg] at hok
                      simp [Except.map] at hok
                    | ok p =>
                      rw [hpg] at hok
                      simp only [Except.map, Except.ok.injEq] at hok
                      right
                      exact ⟨Hand.PAIR, _, hok.symm, by decide, by decide,
                        by decide⟩
                  · -- HIGH_CARD
                    simp only [Except.ok.injEq] at hok
                    right
                    exact ⟨Hand.HIGH_CARD, _, hok.symm, by decide, by decide,
                      by decide⟩

/-- A 5-long selected run ends at value at least 4, and ends at exactly 4
only when it is the synthetic wheel run 0,1,2,3,4 — which forces an ace
(value 13) and the values 1, 2, 3, 4 to be present in the hand. -/
theorem straight_top {h : List Nat} {v : Nat}
    (hlen : ((max_run h).map Prod.fst).length = 5)
    (hlast : ((max_run h).map Prod.fst).getLast? = some v) :
    4 ≤ v ∧ (v = 4 →
      13 ∈ h.map card_value ∧ 1 ∈ h.map card_value ∧ 2 ∈ h.map card_value ∧
      3 ∈ h.map card_value ∧ 4 ∈ h.map card_value) := by
  have hmr5 : (max_run h).length = 5 := by
    rw [List.length_map] at hlen
    exact hlen
  obtain ⟨p0, p1, p2, p3, p4, hmr⟩ := list_length_five hmr5
  have hchain := max_run_chain h
  rw [hmr] at hchain
  simp only [List.chain'_cons, List.chain'_singleton, and_true] at hchain
  obtain ⟨c1, c2, c3, c4⟩ := hchain
  rw [hmr] at hlast
  simp only [List.map_cons, List.map_nil] at hlast
  have hv : v = p4.1 := by
    have : ([p0.1, p1.1, p2.1, p3.1, p4.1] : List Nat).getLast? = some p4.1 := rfl
    rw [this] at hlast
    exact (Option.some.inj hlast).symm
  have hmem : ∀ p ∈ max_run h,
      (p.1 = 0 ∧ 13 ∈ h.map card_value) ∨ p.1 ∈ h.map card_value := by
    intro p hp
    exact with_low_ace_entry (seq_pairs_mem (max_run_mem_seq_pairs hp))
  have hm0 := hmem p0 (by rw [hmr]; simp)
  have hm1 := hmem p1 (by rw [hmr]; simp)
  have hm2 := hmem p2 (by rw [hmr]; simp)
  have hm3 := hmem p3 (by rw [hmr]; simp)
  have hm4 := hmem p4 (by rw [hmr]; simp)
  constructor
  · omega
  · intro hv4
    have hp0 : p0.1 = 0 := by omega
    have hp1 : p1.1 = 1 := by omega
    have hp2 : p2.1 = 2 := by omega
    have hp3 : p3.1 = 3 := by omega
    have hp4 : p4.1 = 4 := by omega
    refine ⟨?_, ?_, ?_, ?_, ?_⟩
    · rcases hm0 with ⟨_, h13⟩ | h0
      · exact h13
      · exfalso
        rw [hp0] at h0
        obtain ⟨x, _, hx⟩ := List.mem_map.mp h0
        have := card_value_pos x
        omega
    · rcases hm1 with ⟨hz, _⟩ | h1
      · omega
      · exact hp1 ▸ h1
    · rcases hm2 with ⟨hz, _⟩ | h2
      · omega
      · exact hp2 ▸ h2
    · rcases hm3 with ⟨hz, _⟩ | h3
      · omega
      · exact hp3 ▸ h3
    · rcases hm4 with ⟨hz, _⟩ | h4
      · omega
      · exact hp4 ▸ h4

/-- C6: the suited wheel A♠2♠3♠4♠5♠ (= [0,1,2,3,4]) evaluates to
`(StraightFlush, 4)`, whose top value 4 is strictly less than the 5 that
the suited 2♠3♠4♠5♠6♠ (= [1,2,3,4,5]) receives; every straight or
straight flush of a hand that does not contain the wheel values
{A,2,3,4,5} has top value at least 5 (so the wheel ranks strictly below
every other straight); and the wheel's whole descriptor compares
strictly greater (Python tuple order, `desc_lt`) than the descriptor of
every hand of a non-straight category. -/
theorem claim_C6_wheel_straight_flush_ranking :
    assess_hand [0, 1, 2, 3, 4] = .ok [Hand.STRAIGHT_FLUSH, 4] ∧
    assess_hand [1, 2, 3, 4, 5] = .ok [Hand.STRAIGHT_FLUSH, 5] ∧
    (4 : Nat) < 5 ∧
    (∀ (h d : List Nat) (v : Nat), assess_hand h = .ok d →
      (d = [Hand.STRAIGHT_FLUSH, v] ∨ d = [Hand.STRAIGHT, v]) →
      ¬ (([13, 1, 2, 3, 4] : List Nat) ⊆ h.map card_value) → 5 ≤ v) ∧
    (∀ h d : List Nat, assess_hand h = .ok d →
      d.head? ≠ some Hand.STRAIGHT_FLUSH → d.head? ≠ some Hand.STRAIGHT →
      desc_lt d [Hand.STRAIGHT_FLUSH, 4] = true) := by
  refine ⟨rfl, rfl, by decide, ?_, ?_⟩
  · intro h d v hok hd hnw
    rcases assess_hand_shape hok with ⟨v', hd', hlen, hlast⟩ | ⟨k, rest, hk, _, hk8, hk5⟩
    · have hvv : v' = v := by
        rcases hd with rfl | rfl <;> rcases hd' with h1 | h1
        · injection h1 with _ hb
          injection hb with hc _
          exact hc.symm
        · exfalso
          injection h1 with ha _
          simp [Hand.STRAIGHT_FLUSH, Hand.STRAIGHT] at ha
        · exfalso
          injection h1 with ha _
          simp [Hand.STRAIGHT_FLUSH, Hand.STRAIGHT] at ha
        · injection h1 with _ hb
          injection hb with hc _
          exact hc.symm
      subst hvv
      obtain ⟨h4le, hwheel⟩ := straight_top hlen hlast
      rcases Nat.lt_or_ge v' 5 with hlt | hge
      · exfalso
        have hv4 : v' = 4 := by omega
        obtain ⟨w13, w1, w2, w3, w4⟩ := hwheel hv4
        apply hnw
        intro x hx
        simp only [List.mem_cons, List.mem_singleton, List.not_mem_nil,
          or_false] at hx
        rcases hx with rfl | rfl | rfl | rfl | rfl
        · exact w13
        · exact w1
        · exact w2
        · exact w3
        · exact w4
      · exact hge
    · exfalso
      rcases hd with h2 | h2 <;> rw [h2] at hk <;> injection hk with ha _
      · exact absurd ha.symm (by simp [Hand.STRAIGHT_FLUSH]; omega)
      · exact hk5 ha.symm
  · intro h d hok hne9 hne5
    rcases assess_hand_shape hok with ⟨v', hd', _, _⟩ | ⟨k, rest, hk, _, hk8, _⟩
    · exfalso
      rcases hd' with h1 | h1
      · exact hne9 (by rw [h1]; rfl)
      · exact hne5 (by rw [h1]; rfl)
    · rw [hk]
      have hk9 : k < 9 := by omega
      simp [desc_lt, Hand.STRAIGHT_FLUSH, hk9]

theorem claim_C6_witness :
    (5 : Nat) ≤ 5 ∧ desc_lt [3, 13, 11, 7] [Hand.STRAIGHT_FLUSH, 4] = true :=
  ⟨claim_C6_wheel_straight_flush_ranking.2.2.2.1 [1, 2, 3, 4, 5]
      [Hand.STRAIGHT_FLUSH, 5] 5 rfl (Or.inl rfl) (by decide),
    claim_C6_wheel_straight_flush_ranking.2.2.2.2 [0, 13, 11, 37, 7, 18, 28]
      [3, 13, 11, 7] rfl (by decide) (by decide)⟩

theorem seq_runs_chain {h : List Nat} {r : List (Nat × Nat)}
    (hr : r ∈ seq_runs h) :
    List.Chain' (fun a b : Nat × Nat => b.1 = a.1 + 1) r := by
  unfold seq_runs at hr
  cases hsp : seq_pairs h with
  | nil =>
    rw [hsp] at hr
    simp at hr
  | cons x xs =>
    rw [hsp] at hr
    exact split_runs_go_chain (List.chain'_singleton x) rfl _ r hr

/-- C9 (amended): on a valid hand the run `find_max_sequence` uses is the
LAST-encountered run of maximal length — every run is at most as long,
and every run after it is strictly shorter — and the function returns
that run truncated to its last 5 entries, which (the run being an
ascending chain of consecutive values) are its top 5 values. -/
theorem claim_C9_amended_last_longest_run_truncated_to_top_five :
    ∀ h : List Nat, valid_hand h →
      ∃ pre r post, seq_runs h = pre ++ r :: post ∧
        (∀ q ∈ seq_runs h, q.length ≤ r.length) ∧
        (∀ q ∈ post, q.length < r.length) ∧
        List.Chain' (fun a b : Nat × Nat => b.1 = a.1 + 1) r ∧
        find_max_sequence h =
          .ok ((last_n 5 r).map Prod.fst, (last_n 5 r).map Prod.snd) := by
  intro h hv
  obtain ⟨h5, h7, hnd, hlt⟩ := hv
  obtain ⟨hfms, hrne, hmrne, _⟩ := find_max_sequence_ok h5 hnd hlt
  obtain ⟨pre, r, post, hdecomp, hmr, hmax, hlast⟩ := max_run_spec h hrne
  have hrmem : r ∈ seq_runs h := by
    rw [hdecomp]
    exact List.mem_append_right _ (List.mem_cons_self _ _)
  refine ⟨pre, r, post, hdecomp, hmax, hlast, seq_runs_chain hrmem, ?_⟩
  rw [hfms, hmr]

theorem claim_C9_amended_witness :
    ∃ pre r post, seq_runs [1, 2, 3, 5, 6, 7, 9] = pre ++ r :: post ∧
      (∀ q ∈ seq_runs [1, 2, 3, 5, 6, 7, 9], q.length ≤ r.length) ∧
      (∀ q ∈ post, q.length < r.length) ∧
      List.Chain' (fun a b : Nat × Nat => b.1 = a.1 + 1) r ∧
      find_max_sequence [1, 2, 3, 5, 6, 7, 9] =
        .ok ((last_n 5 r).map Prod.fst, (last_n 5 r).map Prod.snd) :=
  claim_C9_amended_last_longest_run_truncated_to_top_five [1, 2, 3, 5, 6, 7, 9]
    (by unfold valid_hand; exact ⟨by decide, by decide, by decide, by decide⟩)

/- ### Permutation invariance machinery (distinct rank values) -/

/-- With pairwise-distinct card values no dict overwrite happens, so the
dict is just the list of (value, id) pairs in input order. -/
theorem card_dict_of_nodup_values {h : List Nat}
    (hv : (h.map card_value).Nodup) :
    card_dict h = h.map (fun c => (card_value c, c)) := by
  induction h using List.reverseRecOn with
  | nil => rfl
  | append_singleton l x ih =>
    rw [List.map_append] at hv
    have hvl : (l.map card_value).Nodup := (List.nodup_append.mp hv).1
    have hdisj : card_value x ∉ l.map card_value := by
      intro hmem
      have := (List.nodup_append.mp hv).2.2
      exact this hmem (by simp)
    rw [card_dict_append, ih hvl]
    unfold dict_insert
    have hkeys : (l.map (fun c => (card_value c, c))).map Prod.fst
        = l.map card_value := by
      rw [List.map_map]
      rfl
    rw [if_neg (by rw [hkeys]; exact hdisj)]
    rw [List.map_append]
    rfl

theorem find?_eq_some_of_unique {α : Type} (p : α → Bool) {l : List α} {x : α}
    (hx : x ∈ l) (hpx : p x = true) (huniq : ∀ y ∈ l, p y = true → y = x) :
    l.find? p = some x := by
  induction l with
  | nil => simp at hx
  | cons a t ih =>
    by_cases hpa : p a = true
    · rw [List.find?_cons_of_pos t hpa]
      rw [huniq a (List.mem_cons_self _ _) hpa]
    · rw [List.find?_cons_of_neg t (by simpa using hpa)]
      have hxa : x ≠ a := by
        intro hh
        rw [hh] at hpx
        exact hpa hpx
      have hxt : x ∈ t := by
        rcases List.mem_cons.mp hx with hh | hh
        · exact absurd hh hxa
        · exact hh
      exact ih hxt (fun y hy hpy => huniq y (List.mem_cons_of_mem _ hy) hpy)

theorem dict_get_eq_of_perm {d1 d2 : List (Nat × Nat)}
    (hperm : List.Perm d1 d2) (hnd : (d1.map Prod.fst).Nodup) (k : Nat) :
    dict_get d1 k = dict_get d2 k := by
  unfold dict_get
  cases hf : d1.find? (fun p => p.1 == k) with
  | none =>
    have hall := List.find?_eq_none.mp hf
    have hnone : d2.find? (fun p => p.1 == k) = none :=
      List.find?_eq_none.mpr (fun x hx => hall x (hperm.mem_iff.mpr hx))
    rw [hnone]
  | some q =>
    have hq : q.1 = k := by simpa using List.find?_some hf
    have hqmem := List.mem_of_find?_eq_some hf
    have hsome : d2.find? (fun p => p.1 == k) = some q := by
      apply find?_eq_some_of_unique _ (hperm.mem_iff.mp hqmem) (by simpa using hq)
      intro y hy hpy
      have hy1 : y ∈ d1 := hperm.mem_iff.mpr hy
      have hyk : y.1 = k := by simpa using hpy
      exact List.inj_on_of_nodup_map hnd hy1 hqmem (by rw [hyk, hq])
    rw [hsome]

theorem seq_pairs_eq_of_perm {h1 h2 : List Nat} (hp : List.Perm h1 h2)
    (hv1 : (h1.map card_value).Nodup) : seq_pairs h1 = seq_pairs h2 := by
  have hv2 : (h2.map card_value).Nodup := (hp.map card_value).nodup_iff.mp hv1
  have hd1 := card_dict_of_nodup_values hv1
  have hd2 := card_dict_of_nodup_values hv2
  have hdperm : List.Perm (card_dict h1) (card_dict h2) := by
    rw [hd1, hd2]
    exact hp.map _
  have hget : dict_get (card_dict h1) 13 = dict_get (card_dict h2) 13 :=
    dict_get_eq_of_perm hdperm (dict_keys_nodup h1) 13
  have hwperm : List.Perm (with_low_ace (card_dict h1))
      (with_low_ace (card_dict h2)) := by
    unfold with_low_ace
    rw [← hget]
    cases dict_get (card_dict h1) 13 with
    | none => exact hdperm
    | some i =>
      show List.Perm (dict_insert (card_dict h1) 0 i)
        (dict_insert (card_dict h2) 0 i)
      unfold dict_insert
      rw [if_neg (dict_zero_not_key h1), if_neg (dict_zero_not_key h2)]
      exact hdperm.append_right _
  unfold seq_pairs
  exact @List.eq_of_perm_of_sorted _ pair_le _ _ _
    ((List.perm_insertionSort _ _).trans
      (hwperm.trans (List.perm_insertionSort _ _).symm))
    (List.sorted_insertionSort _ _) (List.sorted_insertionSort _ _)

theorem find_max_sequence_eq_of_perm {h1 h2 : List Nat} (hp : List.Perm h1 h2)
    (hv1 : (h1.map card_value).Nodup) :
    find_max_sequence h1 = find_max_sequence h2 := by
  have hv2 : (h2.map card_value).Nodup := (hp.map card_value).nodup_iff.mp hv1
  have hspe := seq_pairs_eq_of_perm hp hv1
  have hdlen : (card_dict h1).length = (card_dict h2).length := by
    rw [card_dict_of_nodup_values hv1, card_dict_of_nodup_values hv2,
      List.length_map, List.length_map, hp.length_eq]
  have hmr : max_run h1 = max_run h2 := by
    unfold max_run seq_runs
    rw [hspe]
  unfold find_max_sequence
  rw [hdlen, hspe, hmr]

theorem group_duplicates_empty_of_nodup {h : List Nat}
    (hv : (h.map card_value).Nodup) {n : Nat} (hn : 2 ≤ n) :
    group_duplicates h n = [] := by
  cases hg : group_duplicates h n with
  | nil => rfl
  | cons q rest =>
    exfalso
    have hm := group_duplicates_mem (hg ▸ List.mem_cons_self q rest)
    have := List.nodup_iff_count_le_one.mp hv q
    omega

theorem flush_suite_perm {h1 h2 : List Nat} (hp : List.Perm h1 h2)
    (h7 : h1.length ≤ 7) : flush_suite h1 = flush_suite h2 := by
  by_cases hne : h1 = []
  · subst hne
    rw [hp.symm.eq_nil]
  · have hne2 : h2 ≠ [] := by
      intro hh
      subst hh
      exact hne hp.eq_nil
    obtain ⟨p1, hps1, hpc1, hmax1, hfs1⟩ := flush_suite_spec h1 hne
    obtain ⟨p2, hps2, hpc2, hmax2, hfs2⟩ := flush_suite_spec h2 hne2
    have hsp : List.Perm (h1.map (fun c => c / 13)) (h2.map (fun c => c / 13)) :=
      hp.map _
    have hc12 : (h1.map (fun c => c / 13)).count p1.1
        = (h2.map (fun c => c / 13)).count p1.1 := hsp.count_eq _
    have hc21 : (h1.map (fun c => c / 13)).count p2.1
        = (h2.map (fun c => c / 13)).count p2.1 := hsp.count_eq _
    have hle1 : p1.2 ≤ p2.2 := by
      have := hmax2 p1.1 (hsp.mem_iff.mp hps1)
      omega
    have hle2 : p2.2 ≤ p1.2 := by
      have := hmax1 p2.1 (hsp.mem_iff.mpr hps2)
      omega
    rw [hfs1, hfs2]
    by_cases h5 : p1.2 = 5
    · rw [if_pos h5, if_pos (by omega)]
      have hsuit : p1.1 = p2.1 := by
        by_contra hne12
        have hlen : (h1.map (fun c => c / 13)).length = h1.length :=
          List.length_map _ _
        have := count_two_le hne12 (h1.map (fun c => c / 13))
        omega
      rw [hsuit]
    · rw [if_neg h5, if_neg (by omega)]

theorem sort_cards_perm {h1 h2 : List Nat} (hp : List.Perm h1 h2)
    (suit : Option Nat) (rev : Bool) :
    sort_cards h1 suit rev = sort_cards h2 suit rev := by
  have hfp : List.Perm (suit_filter h1 suit) (suit_filter h2 suit) := by
    cases suit with
    | none => exact hp
    | some s => exact hp.filter _
  have hsorteq : List.insertionSort (· ≤ ·) ((suit_filter h1 suit).map card_value)
      = List.insertionSort (· ≤ ·) ((suit_filter h2 suit).map card_value) :=
    @List.eq_of_perm_of_sorted _ (· ≤ ·) _ _ _
      ((List.perm_insertionSort _ _).trans
        (((hfp.map card_value)).trans (List.perm_insertionSort _ _).symm))
      (List.sorted_insertionSort _ _) (List.sorted_insertionSort _ _)
  unfold sort_cards
  cases rev with
  | true => rw [if_pos rfl, if_pos rfl, hsorteq]
  | false => rw [if_neg Bool.false_ne_true, if_neg Bool.false_ne_true, hsorteq]

/-- C2 (amended): `assess_hand` is permutation-invariant on well-formed
hands whose rank values are pairwise distinct (no pairs/trips/quads).
The unamended claim fails when values repeat, because
`Counter.most_common` breaks count ties by encounter order. -/
theorem claim_C2_amended_permutation_invariant_on_distinct_values :
    ∀ h1 h2 : List Nat, valid_hand h1 → (h1.map card_value).Nodup →
      List.Perm h1 h2 → assess_hand h1 = assess_hand h2 := by
  intro h1 h2 hv hnv hp
  obtain ⟨h5, h7, hnd, hlt⟩ := hv
  have hnv2 : (h2.map card_value).Nodup := (hp.map card_value).nodup_iff.mp hnv
  have hfms := find_max_sequence_eq_of_perm hp hnv
  have g41 := group_duplicates_empty_of_nodup hnv (by omega : (2 : Nat) ≤ 4)
  have g42 := group_duplicates_empty_of_nodup hnv2 (by omega : (2 : Nat) ≤ 4)
  have g31 := group_duplicates_empty_of_nodup hnv (by omega : (2 : Nat) ≤ 3)
  have g32 := group_duplicates_empty_of_nodup hnv2 (by omega : (2 : Nat) ≤ 3)
  have g21 := group_duplicates_empty_of_nodup hnv (by omega : (2 : Nat) ≤ 2)
  have g22 := group_duplicates_empty_of_nodup hnv2 (by omega : (2 : Nat) ≤ 2)
  have hfl := flush_suite_perm hp h7
  unfold assess_hand
  rw [hfms]
  cases hf2 : find_max_sequence h2 with
  | error e => rfl
  | ok pair =>
    obtain ⟨sv, sc⟩ := pair
    simp only []
    cases hsf : straight_flush_test sv sc with
    | error e => rfl
    | ok b =>
      cases b with
      | true => rfl
      | false =>
        simp only []
        rw [g41, g42, g31, g32, g21, g22, hfl]
        cases hfq : flush_suite h2 with
        | error e => simp
        | ok r =>
          cases r with
          | some s =>
            simp only []
            rw [sort_cards_perm hp (some s) true]
            simp
          | none =>
            by_cases hL : sv.length = 5
            · rw [if_pos hL, if_pos hL]
              simp
            · rw [if_neg hL, if_neg hL]
              rw [sort_cards_perm hp none true]
              simp

theorem claim_C2_amended_witness :
    assess_hand [0, 9, 12, 11, 10] = assess_hand [10, 11, 12, 9, 0] :=
  claim_C2_amended_permutation_invariant_on_distinct_values
    [0, 9, 12, 11, 10] [10, 11, 12, 9, 0]
    (by unfold valid_hand; exact ⟨by decide, by decide, by decide, by decide⟩)
    (by decide) (by decide)
